import Mathlib

/-!
Verification of the core of the `trivial_network` dataflow engine
(`src/core/v4/network/trivial/trivial_network.hpp`).

The development shallowly embeds, directly from the C++ source:

* the two graph-initialization passes `stride_pass` and `fov_pass` together
  with the node/edge geometry state they mutate (`nnodes.fov/stride/fsize`,
  `nedges.in_stride/in_fsize`), as a fuel-indexed state machine;
* the per-channel accumulation protocol of `input_nodes`, `summing_nodes`
  and `transfer_nodes` driven by `network::forward`, as a fuel-indexed
  interpreter that additionally records an event trace (one `del` event per
  delivery to a channel, one `fire` event per dispatch of a channel) used
  only to state the counting invariants;
* the `filter_edge` kernel wiring (its `last_input` protocol), the
  constructors of the three edge groups, the argument checks of
  `network::backward`, the no-"filters" branch of the `filter_edges`
  constructor, and the fire step of `transfer_nodes::backward`.

Machine integers are modelled as `Int` (the source uses `int64_t`-based
`vec3i`), cube payloads are either an abstract type `C` (when only the
dataflow matters) or `List ℚ`.  The convolution kernels and the transfer
functions live outside the embedded file and are taken as parameters; the
`filter`/`bias` update rules are modelled from the spec, as marked below.
-/

/-- 3-vector of integers, the `vec3i` of the source. -/
structure Vec3 where
  x : Int
  y : Int
  z : Int
deriving DecidableEq, Repr

def Vec3.zero : Vec3 := ⟨0, 0, 0⟩

def Vec3.one : Vec3 := ⟨1, 1, 1⟩

/-- Component-wise product, the `vec3i` `operator*`. -/
def vmul (a b : Vec3) : Vec3 := ⟨a.x * b.x, a.y * b.y, a.z * b.z⟩

/-- Component-wise sum. -/
def vadd (a b : Vec3) : Vec3 := ⟨a.x + b.x, a.y + b.y, a.z + b.z⟩

/-- Component-wise difference. -/
def vsub (a b : Vec3) : Vec3 := ⟨a.x - b.x, a.y - b.y, a.z - b.z⟩

/-- All three components are at least 1. -/
def posV (a : Vec3) : Prop := 1 ≤ a.x ∧ 1 ≤ a.y ∧ 1 ≤ a.z

instance (a : Vec3) : Decidable (posV a) := by unfold posV; infer_instance

/-- The static data of one `nedges` record of `network`: endpoints plus the
`width` and `stride` read from the options (`dummy` edges keep the defaults
`vec3i::one`). -/
structure GEdge where
  src : Nat
  dst : Nat
  width : Vec3
  stride : Vec3
deriving DecidableEq, Repr

/-- Fallback edge for out-of-range `getD` lookups (never reached under the
bounds carried by the lemmas). -/
def dfltE : GEdge := ⟨0, 0, Vec3.one, Vec3.one⟩

/-- The graph topology as built by `network::add_nodes` / `add_edges`: node
groups are numbered `0 .. numNodes-1` (standing for the name-ordered map
`nodes_`), `isInput` records membership in `input_nodes_`, and `edges`
lists the `nedges` records in registration order. -/
structure GGraph where
  numNodes : Nat
  isInput : Nat → Bool
  edges : List GEdge

/-- The mutable geometry state of `network::init`: per node group the
`fov`/`stride`/`fsize` fields of `nnodes`, per edge the `in_stride` and
`in_fsize` fields of `nedges`.  All start at `vec3i::zero`. -/
structure GState where
  fov : Nat → Vec3
  stride : Nat → Vec3
  fsize : Nat → Vec3
  inStride : Nat → Vec3
  inFsize : Nat → Vec3

/-- The all-zero initial geometry state. -/
def gzero : GState :=
  ⟨fun _ => Vec3.zero, fun _ => Vec3.zero, fun _ => Vec3.zero,
   fun _ => Vec3.zero, fun _ => Vec3.zero⟩

/-- The edge with index `ei`. -/
def edgeAt (g : GGraph) (ei : Nat) : GEdge := g.edges.getD ei dfltE

/-- Indices of the out-edges of node `n` (`nnodes.out`), in registration
order. -/
def outIdx (g : GGraph) (n : Nat) : List Nat :=
  (List.range g.edges.length).filter (fun ei => (edgeAt g ei).src = n)

/-- Indices of the in-edges of node `n` (`nnodes.in`), in registration
order. -/
def inIdx (g : GGraph) (n : Nat) : List Nat :=
  (List.range g.edges.length).filter (fun ei => (edgeAt g ei).dst = n)

/-- Call stack frames of the recursive `network::stride_pass`: a call on a
node with a candidate stride, or the remainder of the loop over a visited
node's out-edges (the loop variable `stride` is the second component). -/
inductive SCall where
  | node (n : Nat) (s : Vec3)
  | loop (todo : List Nat) (s : Vec3)

/-- `network::stride_pass`, fuel-indexed.  A visited node (`stride ≠ 0`)
must agree with the incoming stride (`ZI_ASSERT(n->stride==stride)`,
modelled as `none` on failure); an unvisited node records the stride and,
for each out-edge, sets `in_stride` and recurses on the downstream node
with the component-wise product of the stride and the edge stride. -/
def stride_pass (g : GGraph) : Nat → SCall → GState → Option GState
  | 0, _, _ => none
  | fuel + 1, .node n s, st =>
    if st.stride n ≠ Vec3.zero then
      if st.stride n = s then some st else none
    else
      stride_pass g fuel (.loop (outIdx g n) s)
        { st with stride := Function.update st.stride n s }
  | _ + 1, .loop [] _, st => some st
  | fuel + 1, .loop (ei :: rest) s, st =>
    let e := edgeAt g ei
    match stride_pass g fuel (.node e.dst (vmul s e.stride))
        { st with inStride := Function.update st.inStride ei s } with
    | none => none
    | some st1 => stride_pass g fuel (.loop rest s) st1

/-- Call stack frames of the recursive `network::fov_pass`. -/
inductive FCall where
  | node (n : Nat) (fov fsize : Vec3)
  | loop (todo : List Nat) (fov fsize : Vec3)

/-- Write `v` into `f` at every index of `l` (the loop
`for (e : n->out) e->in_fsize = fsize`). -/
def setAll (l : List Nat) (v : Vec3) (f : Nat → Vec3) : Nat → Vec3 :=
  l.foldl (fun acc ei => Function.update acc ei v) f

/-- `network::fov_pass`, fuel-indexed.  A visited node (`fov ≠ 0`) must
agree on both `fsize` and `fov`; an unvisited node first writes `in_fsize`
on all its out-edges, records `fov`/`fsize`, and recurses upstream over its
in-edges with `(fov-1)*e.stride + e.width` and
`(e.width-1)*e.in_stride + fsize`. -/
def fov_pass (g : GGraph) : Nat → FCall → GState → Option GState
  | 0, _, _ => none
  | fuel + 1, .node n fov fsize, st =>
    if st.fov n ≠ Vec3.zero then
      if st.fsize n = fsize ∧ st.fov n = fov then some st else none
    else
      fov_pass g fuel (.loop (inIdx g n) fov fsize)
        { st with inFsize := setAll (outIdx g n) fsize st.inFsize,
                  fov := Function.update st.fov n fov,
                  fsize := Function.update st.fsize n fsize }
  | _ + 1, .loop [] _ _, st => some st
  | fuel + 1, .loop (ei :: rest) fov fsize, st =>
    let e := edgeAt g ei
    match fov_pass g fuel
        (.node e.src (vadd (vmul (vsub fov Vec3.one) e.stride) e.width)
          (vadd (vmul (vsub e.width Vec3.one) (st.inStride ei)) fsize)) st with
    | none => none
    | some st1 => fov_pass g fuel (.loop rest fov fsize) st1

/-- Generic sequencing of a fallible step over a list (the shape of the
seed loops of `network::init`). -/
def seqOpt {α σ : Type} (step : α → σ → Option σ) : List α → σ → Option σ
  | [], st => some st
  | a :: rest, st =>
    match step a st with
    | none => none
    | some st1 => seqOpt step rest st1

/-- The input node groups in registration order (`input_nodes_`). -/
def inputsList (g : GGraph) : List Nat :=
  (List.range g.numNodes).filter (fun n => g.isInput n)

/-- The output node groups: those with an empty out-edge list, computed by
`network::init` after all edges are added (`output_nodes_`). -/
def outputsList (g : GGraph) : List Nat :=
  (List.range g.numNodes).filter (fun n => outIdx g n = [])

/-- `network::init`: seed `stride_pass` with `vec3i::one` from every input
node, then seed `fov_pass` with `(vec3i::one, outsz)` from every output
node. -/
def graph_init (g : GGraph) (outsz : Vec3) (fuel : Nat) : Option GState :=
  match seqOpt (fun n st => stride_pass g fuel (.node n Vec3.one) st)
      (inputsList g) gzero with
  | none => none
  | some st1 =>
    seqOpt (fun n st => fov_pass g fuel (.node n Vec3.one outsz) st)
      (outputsList g) st1

/-- The three node-group variants (`"input" | "sum" | "transfer"`). -/
inductive NType where
  | input
  | sum
  | transfer
deriving DecidableEq, Repr, BEq

/-- One channel-level edge of the running network, as created by
`edge_of<E>`: it attaches itself to `src`'s `outputs_[srcCh]` and `dst`'s
`inputs_[dstCh]`. -/
structure CEdge where
  src : Nat
  srcCh : Nat
  dst : Nat
  dstCh : Nat
deriving DecidableEq, Repr

/-- The running network over cube payloads `C`: node groups `0 ..
numNodes-1` with their type and channel count, the channel-level edges in
attachment order, and the per-edge forward transformation `edgeF` (the
`impl.forward` of the edge kernel — convolution, pooling or copy — taken
as a parameter since the kernels live outside the embedded file), the cube
sum `addc` (`operator+=`), and the per-channel transfer application `phi`
(`func_.apply(·, biases_[i]->b())`). -/
structure Net (C : Type) where
  numNodes : Nat
  ntype : Nat → NType
  size : Nat → Nat
  edges : List CEdge
  edgeF : Nat → C → C
  addc : C → C → C
  phi : Nat → Nat → C → C

/-- The out-edges of channel `i` of node `n` (`outputs_[i]`), paired with
their global index. -/
def outCh {C} (net : Net C) (n i : Nat) : List (Nat × CEdge) :=
  net.edges.enum.filter (fun p => p.2.src = n ∧ p.2.srcCh = i)

/-- The in-edges of channel `i` of node `n` (`inputs_[i]`), paired with
their global index. -/
def inCh {C} (net : Net C) (n i : Nat) : List (Nat × CEdge) :=
  net.edges.enum.filter (fun p => p.2.dst = n ∧ p.2.dstCh = i)

/-- The forward fan-in of a channel, `inputs_[i].size()`. -/
def need {C} (net : Net C) (n i : Nat) : Nat := (inCh net n i).length

/-- The mutable per-channel state of the node groups during a pass:
`received_`, the feature accumulators `fs_` and the gradient accumulators
`gs_` (a `none` models a null `cube_p`). -/
structure RState (C : Type) where
  received : Nat × Nat → Nat
  fs : Nat × Nat → Option C
  gs : Nat × Nat → Option C

/-- The all-clear state between passes. -/
def rstate0 (C : Type) : RState C :=
  ⟨fun _ => 0, fun _ => none, fun _ => none⟩

/-- Specification-only events recorded by the interpreter: `del n i` marks
one delivery to channel `(n,i)` (one call of `nodes::forward(i, cube)`),
`fire n i` marks channel `(n,i)` dispatching to its out-edges. -/
inductive Ev where
  | del (n i : Nat)
  | fire (n i : Nat)
deriving DecidableEq, Repr

/-- The node a trace event belongs to. -/
def Ev.node : Ev → Nat
  | .del n _ => n
  | .fire n _ => n

/-- Number of deliveries to channel `(n,i)` in a trace. -/
def dcount (tr : List Ev) (n i : Nat) : Nat := tr.count (.del n i)

/-- Number of fires of channel `(n,i)` in a trace. -/
def fcount (tr : List Ev) (n i : Nat) : Nat := tr.count (.fire n i)

/-- Call stack frames of a forward pass: the body of
`nodes::forward(i, cube)` on some node group, or the remainder of a
dispatch loop `for (e : outputs_[i]) e->forward(f)` (every `edge_of`
forwards `impl.forward(f)` to `out_nodes->forward(out_num, ·)`). -/
inductive FwCall (C : Type) where
  | node (n i : Nat) (c : C)
  | loop (todo : List (Nat × CEdge)) (c : C)

/-- The forward accumulation protocol, fuel-indexed, returning the final
state and the event trace.  Faithful to the source:

* `input_nodes::forward` checks `n < size_` and dispatches immediately;
* `summing_nodes::forward` takes the cube if `received_[n] == 0`, else adds
  it (`none` models the null dereference if the accumulator were absent),
  increments `received_[n]`, and on reaching `inputs_[n].size()` dispatches
  the accumulator, then zeroes `received_[n]` and resets `fs_[n]`;
* `transfer_nodes::forward` is the same except that on firing it applies
  `phi` in place before dispatching and does not reset `fs_[n]`. -/
def forward_run {C} (net : Net C) : Nat → FwCall C → RState C → Option (RState C × List Ev)
  | 0, _, _ => none
  | fuel + 1, .node n i c, st =>
    match net.ntype n with
    | .input =>
      if i < net.size n then
        match forward_run net fuel (.loop (outCh net n i) c) st with
        | none => none
        | some (st1, tr) => some (st1, .del n i :: .fire n i :: tr)
      else none
    | .sum =>
      if i < net.size n then
        match (if st.received (n, i) = 0 then some c
               else (st.fs (n, i)).map (fun a => net.addc a c)) with
        | none => none
        | some v =>
          let st1 : RState C :=
            { st with fs := Function.update st.fs (n, i) (some v),
                      received := Function.update st.received (n, i) (st.received (n, i) + 1) }
          if st.received (n, i) + 1 = (inCh net n i).length then
            match forward_run net fuel (.loop (outCh net n i) v) st1 with
            | none => none
            | some (st2, tr) =>
              some ({ st2 with received := Function.update st2.received (n, i) 0,
                               fs := Function.update st2.fs (n, i) none },
                    .del n i :: .fire n i :: tr)
          else some (st1, [.del n i])
      else none
    | .transfer =>
      if i < net.size n then
        match (if st.received (n, i) = 0 then some c
               else (st.fs (n, i)).map (fun a => net.addc a c)) with
        | none => none
        | some v =>
          if st.received (n, i) + 1 = (inCh net n i).length then
            let v1 := net.phi n i v
            let st1 : RState C :=
              { st with fs := Function.update st.fs (n, i) (some v1),
                        received := Function.update st.received (n, i) (st.received (n, i) + 1) }
            match forward_run net fuel (.loop (outCh net n i) v1) st1 with
            | none => none
            | some (st2, tr) =>
              some ({ st2 with received := Function.update st2.received (n, i) 0 },
                    .del n i :: .fire n i :: tr)
          else
            some ({ st with fs := Function.update st.fs (n, i) (some v),
                            received := Function.update st.received (n, i) (st.received (n, i) + 1) },
                  [.del n i])
      else none
  | _ + 1, .loop [] _, st => some (st, [])
  | fuel + 1, .loop ((ei, e) :: rest) c, st =>
    match forward_run net fuel (.node e.dst e.dstCh (net.edgeF ei c)) st with
    | none => none
    | some (st1, tr1) =>
      match forward_run net fuel (.loop rest c) st1 with
      | none => none
      | some (st2, tr2) => some (st2, tr1 ++ tr2)

/-- The flat list of top-level deliveries of `network::forward`: for each
incoming map entry `(name, cubes)`, one `forward(i, cubes[i])` call per
channel. -/
def delivery_list {C} (fin : List (Nat × List C)) : List (Nat × Nat × C) :=
  fin.flatMap (fun p => p.2.enum.map (fun q => (p.1, q.1, q.2)))

/-- The input node groups of the running network. -/
def inputsOf {C} (net : Net C) : List Nat :=
  (List.range net.numNodes).filter (fun n => net.ntype n = NType.input)

/-- The argument checks of `network::forward`:
`fin.size()==input_nodes_.size()`, every key is a registered input node
(`input_nodes_.count(in.first)`), and each value list matches that node's
channel count (`in_layer->num_in_nodes()==in.second.size()`). -/
def forward_checks {C} (net : Net C) (fin : List (Nat × List C)) : Bool :=
  (fin.length == (inputsOf net).length) &&
  fin.all (fun p => ((inputsOf net).contains p.1) && (net.size p.1 == p.2.length))

/-- Run all top-level deliveries in order, concatenating the traces. -/
def run_top {C} (net : Net C) (fuel : Nat) :
    List (Nat × Nat × C) → RState C → Option (RState C × List Ev)
  | [], st => some (st, [])
  | (n, i, c) :: rest, st =>
    match forward_run net fuel (.node n i c) st with
    | none => none
    | some (st1, tr1) =>
      match run_top net fuel rest st1 with
      | none => none
      | some (st2, tr2) => some (st2, tr1 ++ tr2)

/-- The state- and trace-level result of `network::forward` on a fresh
state: check the arguments, then deliver every input channel. -/
def run_forward {C} (net : Net C) (fuel : Nat) (fin : List (Nat × List C)) :
    Option (RState C × List Ev) :=
  if forward_checks net fin then run_top net fuel (delivery_list fin) (rstate0 C)
  else none

/-- All out-edges of node group `n` regardless of channel (`nnodes.out`
viewed through the channel-level edges). -/
def node_out_all {C} (net : Net C) (n : Nat) : List CEdge :=
  net.edges.filter (fun e => e.src = n)

/-- The output node groups of the running network (`output_nodes_`): empty
out-edge list. -/
def output_nodes {C} (net : Net C) : List Nat :=
  (List.range net.numNodes).filter (fun n => node_out_all net n = [])

/-- `nodes::get_featuremaps` on node group `n`: the current `fs_` vector;
`input_nodes` does not implement it (`UNIMPLEMENTED`), modelled as
`none`. -/
def get_featuremaps {C} (net : Net C) (st : RState C) (n : Nat) :
    Option (List (Option C)) :=
  match net.ntype n with
  | .input => none
  | _ => some ((List.range (net.size n)).map (fun i => st.fs (n, i)))

/-- `network::forward`: deliver the inputs, then collect one map entry per
output node group holding that node's current feature-map vector. -/
def network_forward {C} (net : Net C) (fuel : Nat) (fin : List (Nat × List C)) :
    Option (List (Nat × List (Option C)) × RState C × List Ev) :=
  match run_forward net fuel fin with
  | none => none
  | some (st, tr) =>
    match (output_nodes net).mapM
        (fun n => (get_featuremaps net st n).map (fun v => (n, v))) with
    | none => none
    | some outs => some (outs, st, tr)

/-- Convolution-filter parameter object (`filter`).  Modelled from the
spec: the class itself lives in `network/filter.hpp`, outside the embedded
file; per §4.3 its update is `V ← mu·V − eta·(dW + lambda·W); W ← W + V`.
Cubes are flat lists of rationals. -/
structure Filt where
  W : List ℚ
  V : List ℚ
  eta : ℚ
  mu : ℚ
  lam : ℚ

/-- Element-wise cube sum. -/
def cadd (a b : List ℚ) : List ℚ := List.zipWith (fun x y => x + y) a b

/-- Scalar multiple of a cube. -/
def cscale (r : ℚ) (a : List ℚ) : List ℚ := a.map (fun x => r * x)

/-- Modelled from the spec: `filter::update(dW)` per §4.3 (momentum SGD
with weight decay, in place). -/
def Filt.update (F : Filt) (dW : List ℚ) : Filt :=
  let v1 := cadd (cscale F.mu F.V) (cscale (-F.eta) (cadd dW (cscale F.lam F.W)))
  { F with V := v1, W := cadd F.W v1 }

/-- Modelled from the spec: the scalar `bias` parameter object of
`network/bias.hpp` (outside the embedded file); per §4.3 its update is
`v ← mu·v − eta·(dB + lambda·b); b ← b + v`. -/
structure BiasP where
  b : ℚ
  v : ℚ
  eta : ℚ
  mu : ℚ
  lam : ℚ
deriving DecidableEq, Repr

/-- Modelled from the spec: `bias::update(dB)` per §4.3. -/
def BiasP.update (B : BiasP) (dB : ℚ) : BiasP :=
  let v1 := B.mu * B.v - B.eta * (dB + B.lam * B.b)
  { B with v := v1, b := B.b + v1 }

/-- The mutable state of one `filter_edge`: the shared filter it references
and the retained `last_input` (a `none` models the null `ccube_p` before
the first forward). -/
structure FilterEdgeState where
  filt : Filt
  last_input : Option (List ℚ)

/-- `filter_edge::forward`: retain the input as `last_input` and return
`convolve_sparse(f, W, filter_stride)`.  The kernel `conv` is a parameter
(it lives in `convolution/convolution.hpp`, outside the embedded file). -/
def filter_edge_forward (conv : List ℚ → List ℚ → Vec3 → List ℚ)
    (s : Vec3) (f : List ℚ) (st : FilterEdgeState) : List ℚ × FilterEdgeState :=
  (conv f st.filt.W s, { st with last_input := some f })

/-- `filter_edge::backward`: `ZI_ASSERT(last_input)`, then compute
`dEdW = convolve_sparse_flipped(last_input, g, stride)` and
`ret = convolve_sparse_inverse(g, W, stride)`, update the filter with
`dEdW`, and return `ret`.  The kernels `inv` and `flip` are parameters. -/
def filter_edge_backward (inv flip : List ℚ → List ℚ → Vec3 → List ℚ)
    (s : Vec3) (g : List ℚ) (st : FilterEdgeState) :
    Option (List ℚ × FilterEdgeState) :=
  match st.last_input with
  | none => none
  | some li =>
    let dEdW := flip li g s
    let ret := inv g st.filt.W s
    some (ret, { st with filt := st.filt.update dEdW })

/-- The per-node data of one `transfer_nodes` group needed by its
`backward`: channel count, fan-in and fan-out per channel, cube sum, the
gradient transfer `apply_grad` (`func_.apply_grad(g, f)`) and the scalar
cube sum `sumc` — the last three are parameters (transfer functions live
outside the embedded file). -/
structure TransferNB (C : Type) where
  size : Nat
  numIn : Nat → Nat
  numOut : Nat → Nat
  addc : C → C → C
  apply_grad : C → C → C
  sumc : C → ℚ

/-- The mutable per-channel state of one `transfer_nodes` group. -/
structure TransferSt (C : Type) where
  received : Nat → Nat
  fs : Nat → Option C
  gs : Nat → Option C
  biases : Nat → BiasP

/-- `transfer_nodes::backward(n, g)`: check `n < size_`, accumulate the
gradient, and when `++received_[n] == outputs_[n].size()` or
`outputs_[n].size() == 0` fire: apply `phi'` via `apply_grad` to the
accumulated gradient against the retained feature map, update the channel
bias with the scalar sum of the (transformed) gradient, dispatch that
gradient to every in-edge (returned as the dispatch list, in-edge order),
and only then zero `received_[n]` and release both `gs_[n]` and `fs_[n]`. -/
def transfer_backward {C} (t : TransferNB C) (n : Nat) (g : C)
    (st : TransferSt C) : Option (TransferSt C × List C) :=
  if n < t.size then
    match (if st.received n = 0 then some g
           else (st.gs n).map (fun a => t.addc a g)) with
    | none => none
    | some v =>
      if st.received n + 1 = t.numOut n ∨ t.numOut n = 0 then
        match st.fs n with
        | none => none
        | some fv =>
          let v1 := t.apply_grad v fv
          let b1 := (st.biases n).update (t.sumc v1)
          some ({ received := Function.update st.received n 0,
                  fs := Function.update st.fs n none,
                  gs := Function.update st.gs n none,
                  biases := Function.update st.biases n b1 },
                List.replicate (t.numIn n) v1)
      else
        some ({ st with received := Function.update st.received n (st.received n + 1),
                        gs := Function.update st.gs n (some v) }, [])
  else none

/-- The `(src_channel, dst_channel)` wiring laid down by the
`filter_edges` constructor: `k` runs over `i` (outer, `0..n-1`) then `j`
(inner, `0..m-1`), one edge per pair. -/
def filter_edges_pairs (n m : Nat) : List (Nat × Nat) :=
  (List.range n).flatMap (fun i => (List.range m).map (fun j => (i, j)))

/-- The `filter_edges` constructor: `ZI_ASSERT((n>0)&&m>0)`, then the
cartesian wiring. -/
def filter_edges_ctor (n m : Nat) : Option (List (Nat × Nat)) :=
  if 0 < n ∧ 0 < m then some (filter_edges_pairs n m) else none

/-- The `dummy_edges` constructor:
`ZI_ASSERT(in->num_out_nodes()==out->num_in_nodes())` (both equal the
group's channel count), then one diagonal edge per channel. -/
def dummy_edges_ctor (n m : Nat) : Option (List (Nat × Nat)) :=
  if n = m then some ((List.range n).map (fun i => (i, i))) else none

/-- The `max_pooling_edges` constructor: the same equal-channel-count
check and diagonal wiring as `dummy_edges`. -/
def max_pooling_edges_ctor (n m : Nat) : Option (List (Nat × Nat)) :=
  if n = m then some ((List.range n).map (fun i => (i, i))) else none

/-- The entries of the upstream group's `outputs_[i]` contributed by one
edge-group wiring (each `edge_of` attaches itself once via
`attach_out_edge(inn, this)`), in attachment order. -/
def out_edges_at (es : List (Nat × Nat)) (i : Nat) : List (Nat × Nat) :=
  es.filter (fun p => p.1 = i)

/-- The entries of the downstream group's `inputs_[j]` contributed by one
edge-group wiring (via `attach_in_edge(outn, this)`), in attachment
order. -/
def in_edges_at (es : List (Nat × Nat)) (j : Nat) : List (Nat × Nat) :=
  es.filter (fun p => p.2 = j)

/-- The interface data `network::backward` checks its argument against:
the registered input node groups and, per output node group, its
`num_out_nodes()` (node ids stand for the name-ordered maps). -/
structure NetNames where
  inputs : List Nat
  outputs : List (Nat × Nat)

/-- The runtime checks of `network::backward(fout)` as written:
`ZI_ASSERT(fout.size()==input_nodes_.size())`, then per entry
`ZI_ASSERT(output_nodes_.count(out.first))` and
`ZI_ASSERT(out_layer->num_out_nodes()==out.second.size())` (entries carry
the gradient-list length). -/
def backward_checks (net : NetNames) (fout : List (Nat × Nat)) : Bool :=
  (fout.length == net.inputs.length) &&
  fout.all (fun p =>
    match net.outputs.find? (fun q => q.1 == p.1) with
    | none => false
    | some q => q.2 == p.2)

/-- A `fout` argument that satisfies the documented precondition of
`backward`: its keys are exactly the output names and each length matches
that output's channel count. -/
def valid_backward_arg (net : NetNames) (fout : List (Nat × Nat)) : Prop :=
  fout = net.outputs

/-- A heap cell for the `new double[n]` buffer of the `filter_edges`
constructor: its payload and whether it is still allocated. -/
structure HeapBuf where
  alive : Bool
  contents : List ℚ

/-- `new double[n]`: an allocated, uninitialised buffer. -/
def new_buf (n : Nat) : HeapBuf := ⟨true, List.replicate n 0⟩

/-- `initf->initialize(filters_raw, n_values)`: fill the buffer. -/
def fill_buf (vals : List ℚ) (h : HeapBuf) : HeapBuf :=
  { h with contents := vals }

/-- `delete [] filters_raw`: deallocate. -/
def delete_buf (h : HeapBuf) : HeapBuf := { h with alive := false }

/-- Reading the buffer's bytes (the
`std::string(reinterpret_cast<char*>(filters_raw), …)` constructor call):
defined only while the buffer is allocated; a read after `delete []` has
no defined value. -/
def read_buf (h : HeapBuf) : Option (List ℚ) :=
  if h.alive then some h.contents else none

/-- The `filters`-absent branch of the `filter_edges` constructor, in
source order: allocate `n_values` doubles, have the named initializer fill
them (`initf` is a parameter producing the initializer's output values),
`delete []` the buffer, and only then build the byte string from the
deleted buffer. -/
def filter_values_from_init (initf : Nat → List ℚ) (n_values : Nat) :
    Option (List ℚ) :=
  let buf := new_buf n_values
  let buf := fill_buf (initf n_values) buf
  let buf := delete_buf buf
  read_buf buf

/-- All edge windows and strides of a topology are component-wise
positive (the spec's well-formedness of edge options). -/
def edgesPos (g : GGraph) : Prop := ∀ e ∈ g.edges, posV e.width ∧ posV e.stride

/-- The stride relation established for one edge: its `in_stride` equals
the upstream stride and the downstream stride is the component-wise
product of the upstream stride with the edge stride. -/
def sOK (g : GGraph) (st : GState) (ei : Nat) : Prop :=
  st.inStride ei = st.stride (edgeAt g ei).src ∧
  st.stride (edgeAt g ei).dst = vmul (st.stride (edgeAt g ei).src) (edgeAt g ei).stride

/-- Every node stride is either still unset or component-wise positive. -/
def strideInv (st : GState) : Prop :=
  ∀ n, st.stride n = Vec3.zero ∨ posV (st.stride n)

/-- Every edge `in_stride` is either still unset or positive. -/
def inStrideInv (st : GState) : Prop :=
  ∀ ei, st.inStride ei = Vec3.zero ∨ posV (st.inStride ei)

/-- The fov/fsize relations established for one edge once its downstream
node is visited. -/
def fOK (g : GGraph) (st : GState) (ei : Nat) : Prop :=
  st.fov (edgeAt g ei).src =
    vadd (vmul (vsub (st.fov (edgeAt g ei).dst) Vec3.one) (edgeAt g ei).stride)
      (edgeAt g ei).width ∧
  st.fsize (edgeAt g ei).src =
    vadd (vmul (vsub (edgeAt g ei).width Vec3.one) (st.inStride ei))
      (st.fsize (edgeAt g ei).dst)

/-- Once an edge's upstream node is fov-visited, the edge's recorded
`in_fsize` equals the upstream node's `fsize`. -/
def fInOK (g : GGraph) (st : GState) (ei : Nat) : Prop :=
  st.inFsize ei = st.fsize (edgeAt g ei).src

/-- Every node fov is either still unset or positive together with its
fsize. -/
def fovInv (st : GState) : Prop :=
  ∀ n, st.fov n = Vec3.zero ∨ (posV (st.fov n) ∧ posV (st.fsize n))

/-- Fuel-bounded forward reachability from the input nodes. -/
def reachFwdB (g : GGraph) : Nat → Nat → Bool
  | 0, n => g.isInput n
  | fuel + 1, n =>
    g.isInput n || g.edges.any (fun e => e.dst == n && reachFwdB g fuel e.src)

/-- Fuel-bounded backward reachability to the output nodes. -/
def reachBwdB (g : GGraph) : Nat → Nat → Bool
  | 0, n => decide (outIdx g n = [])
  | fuel + 1, n =>
    decide (outIdx g n = []) ||
      g.edges.any (fun e => e.src == n && reachBwdB g fuel e.dst)

/-- Structural sanity of the running network: no edge points into an input
node group (`input_nodes` has no `attach_in_edge`) and every edge's
endpoint channels are in range. -/
def validT {C} (net : Net C) : Prop :=
  ∀ e ∈ net.edges,
    net.ntype e.dst ≠ NType.input ∧
    e.srcCh < net.size e.src ∧ e.dstCh < net.size e.dst ∧
    e.src < net.numNodes ∧ e.dst < net.numNodes

/-- `rank` witnesses acyclicity of the running network. -/
def ranked {C} (net : Net C) (rank : Nat → Nat) : Prop :=
  ∀ e ∈ net.edges, rank e.src < rank e.dst

/-- Accumulation counters are strictly below the fan-in on every channel
with at least one in-edge. -/
def recInv {C} (net : Net C) (st : RState C) : Prop :=
  ∀ p q, 1 ≤ need net p q → st.received (p, q) < need net p q

/-- On summing node-groups the feature accumulator is held exactly while
an accumulation is in progress. -/
def sumFsInv {C} (net : Net C) (st : RState C) : Prop :=
  ∀ p q, net.ntype p = NType.sum → (st.fs (p, q) = none ↔ st.received (p, q) = 0)

/-- Every non-input channel of the running network has at least one
in-edge (the cartesian wiring covers every channel of a connected
group). -/
def fanInOk {C} (net : Net C) : Prop :=
  ∀ p, p < net.numNodes → net.ntype p ≠ NType.input →
    ∀ q, q < net.size p → 1 ≤ need net p q

/-- Total number of fires of the source channels of a list of edges. -/
def firesSum (tr : List Ev) (l : List (Nat × CEdge)) : Nat :=
  (l.map (fun pe => fcount tr pe.2.src pe.2.srcCh)).sum

/-- Example topology: one input node group `0` feeding one summing output
node group `1` over a single convolution edge of window `(2,2,2)` and
unit stride. -/
def exG : GGraph := ⟨2, fun n => n == 0, [⟨0, 1, ⟨2, 2, 2⟩, Vec3.one⟩]⟩

/-- Example running network: input group `0` (one channel) feeding a
transfer output group `1` (one channel) over one identity-like edge; cubes
are summarized as naturals. -/
def exNetT : Net Nat :=
  ⟨2, fun n => if n == 0 then NType.input else NType.transfer, fun _ => 1,
   [⟨0, 0, 1, 0⟩], fun _ c => c, Nat.add, fun _ _ c => c⟩

/-- Example running network with a summing output group instead. -/
def exNetS : Net Nat :=
  ⟨2, fun n => if n == 0 then NType.input else NType.sum, fun _ => 1,
   [⟨0, 0, 1, 0⟩], fun _ c => c, Nat.add, fun _ _ c => c⟩

/-- Example forward argument: one cube for the single input channel. -/
def exFin : List (Nat × List Nat) := [(0, [7])]

/-- Example transfer node-group data for the backward step: one channel,
two in-edges, zero out-edges (a terminal channel). -/
def exTNB : TransferNB Nat :=
  ⟨1, fun _ => 2, fun _ => 0, Nat.add, fun g f => g * f, fun g => (g : ℚ)⟩

/-- Example transfer node-group state holding a retained feature map. -/
def exTSt : TransferSt Nat :=
  ⟨fun _ => 0, fun _ => some 3, fun _ => none, fun _ => ⟨0, 0, 1/10, 0, 0⟩⟩

/-- Example backward interface: one input node group, two output node
groups of one and two channels. -/
def exNames : NetNames := ⟨[0], [(1, 1), (2, 2)]⟩

/-- The gradient map matching `exNames`'s outputs exactly. -/
def exFout : List (Nat × Nat) := [(1, 1), (2, 2)]

/-- Example convolution-edge state with a retained `last_input`. -/
def exFES : FilterEdgeState := ⟨⟨[1], [0], 1/10, 0, 0⟩, some [2]⟩

/-- The diagonal wiring laid down by `dummy_edges` and
`max_pooling_edges`: one edge per channel, channel `i` to channel `i`. -/
def diag_pairs (k : Nat) : List (Nat × Nat) :=
  (List.range k).map (fun i => (i, i))

/-- The edges of `X` (a pending set of loop frames on the call stack) are
in range and have stride-visited upstream nodes. -/
def sHypX (g : GGraph) (st : GState) (X : List Nat) : Prop :=
  ∀ ei ∈ X, ei < g.edges.length ∧ st.stride (edgeAt g ei).src ≠ Vec3.zero

/-- Every in-range edge outside the pending set `X` whose upstream node is
stride-visited satisfies the stride relation. -/
def sOKout (g : GGraph) (st : GState) (X : List Nat) : Prop :=
  ∀ ei, ei < g.edges.length → ei ∉ X →
    st.stride (edgeAt g ei).src ≠ Vec3.zero → sOK g st ei

/-- The stride pass leaves the fov-pass fields untouched. -/
def sFrame (st st' : GState) : Prop :=
  st'.fov = st.fov ∧ st'.fsize = st.fsize ∧ st'.inFsize = st.inFsize

/-- Postcondition bundle of one `stride_pass` call relative to pending set
`X`: already-set strides persist, pending edges' `in_stride` persists, the
stride relation holds outside `X`, positivity is maintained, and the
fov-pass fields are untouched. -/
def sConcl (g : GGraph) (st st' : GState) (X : List Nat) : Prop :=
  (∀ m, st.stride m ≠ Vec3.zero → st'.stride m = st.stride m) ∧
  (∀ ei ∈ X, st'.inStride ei = st.inStride ei) ∧
  sOKout g st' X ∧ strideInv st' ∧ inStrideInv st' ∧ sFrame st st'

/-- The edges of a pending fov-loop set are in range and have fov-visited
downstream nodes. -/
def fHypX (g : GGraph) (st : GState) (X : List Nat) : Prop :=
  ∀ ei ∈ X, ei < g.edges.length ∧ st.fov (edgeAt g ei).dst ≠ Vec3.zero

/-- Every in-range edge outside the pending set whose downstream node is
fov-visited satisfies the fov/fsize relations. -/
def fOKout (g : GGraph) (st : GState) (X : List Nat) : Prop :=
  ∀ ei, ei < g.edges.length → ei ∉ X →
    st.fov (edgeAt g ei).dst ≠ Vec3.zero → fOK g st ei

/-- Every in-range edge with a fov-visited upstream node has its
`in_fsize` recorded as the upstream `fsize`. -/
def fInOKall (g : GGraph) (st : GState) : Prop :=
  ∀ ei, ei < g.edges.length → st.fov (edgeAt g ei).src ≠ Vec3.zero → fInOK g st ei

/-- The fov pass leaves the stride-pass fields untouched. -/
def fFrame (st st' : GState) : Prop :=
  st'.stride = st.stride ∧ st'.inStride = st.inStride

/-- Postcondition bundle of one `fov_pass` call relative to pending set
`X`. -/
def fConcl (g : GGraph) (st st' : GState) (X : List Nat) : Prop :=
  (∀ m, st.fov m ≠ Vec3.zero → st'.fov m = st.fov m ∧ st'.fsize m = st.fsize m) ∧
  fOKout g st' X ∧ fInOKall g st' ∧ fovInv st' ∧ fFrame st st'

/-- Endpoint indices of every edge are in range. -/
def gValid (g : GGraph) : Prop :=
  ∀ e ∈ g.edges, e.src < g.numNodes ∧ e.dst < g.numNodes

/-- Postcondition bundle of one `nodes::forward(i, cube)` call on channel
`(n, i)` during the pass: every event is at a node ranked at least `rank
n`; on non-input nodes the received counter follows the accumulate/reset
pattern and the fire count follows its quotient; input channels are
untouched except for the call's own delivery; every delivery in the trace
is either the call's own or caused by a fire of an in-edge's source
channel; the summing-node buffer invariant is preserved; transfer feature
maps are null exactly when they were null and nothing was delivered;
gradient accumulators are untouched. -/
def nodeConcl {C : Type} (net : Net C) (rank : Nat → Nat) (n i : Nat)
    (st st' : RState C) (tr : List Ev) : Prop :=
  (∀ ev ∈ tr, rank n ≤ rank ev.node) ∧
  (∀ p q, net.ntype p ≠ NType.input →
    (st.received (p, q) < need net p q ∨ need net p q = 0 →
      st'.received (p, q) = (st.received (p, q) + dcount tr p q) % need net p q ∧
      fcount tr p q = (st.received (p, q) + dcount tr p q) / need net p q) ∧
    (dcount tr p q = 0 →
      st'.received (p, q) = st.received (p, q) ∧ fcount tr p q = 0)) ∧
  (∀ p q, net.ntype p = NType.input →
    st'.received (p, q) = st.received (p, q) ∧ st'.fs (p, q) = st.fs (p, q) ∧
    dcount tr p q = (if p = n ∧ q = i then 1 else 0) ∧
    fcount tr p q = (if p = n ∧ q = i then 1 else 0)) ∧
  (∀ p q, dcount tr p q =
    (if p = n ∧ q = i then 1 else 0) + firesSum tr (inCh net p q)) ∧
  (sumFsInv net st → sumFsInv net st') ∧
  (∀ p q, net.ntype p = NType.transfer →
    (st'.fs (p, q) = none ↔ (st.fs (p, q) = none ∧ dcount tr p q = 0))) ∧
  st'.gs = st.gs

/-- Postcondition bundle of a dispatch loop over `todo` whose source
channel sits at rank `R`. -/
def loopConcl {C : Type} (net : Net C) (rank : Nat → Nat) (R : Nat)
    (todo : List (Nat × CEdge)) (st st' : RState C) (tr : List Ev) : Prop :=
  (∀ ev ∈ tr, R < rank ev.node) ∧
  (∀ p q, net.ntype p ≠ NType.input →
    (st.received (p, q) < need net p q ∨ need net p q = 0 →
      st'.received (p, q) = (st.received (p, q) + dcount tr p q) % need net p q ∧
      fcount tr p q = (st.received (p, q) + dcount tr p q) / need net p q) ∧
    (dcount tr p q = 0 →
      st'.received (p, q) = st.received (p, q) ∧ fcount tr p q = 0)) ∧
  (∀ p q, net.ntype p = NType.input →
    st'.received (p, q) = st.received (p, q) ∧ st'.fs (p, q) = st.fs (p, q) ∧
    dcount tr p q = 0 ∧ fcount tr p q = 0) ∧
  (∀ p q, dcount tr p q =
    todo.countP (fun pe => pe.2.dst = p ∧ pe.2.dstCh = q) +
      firesSum tr (inCh net p q)) ∧
  (sumFsInv net st → sumFsInv net st') ∧
  (∀ p q, net.ntype p = NType.transfer →
    (st'.fs (p, q) = none ↔ (st.fs (p, q) = none ∧ dcount tr p q = 0))) ∧
  st'.gs = st.gs

/-- Number of top-level deliveries of `network::forward` targeting channel
`(p,q)`. -/
def dlvCount {C : Type} (ds : List (Nat × Nat × C)) (p q : Nat) : Nat :=
  ds.countP (fun d => d.1 = p ∧ d.2.1 = q)

/-- Postcondition bundle of the top-level delivery loop of
`network::forward`, relative to the list `ds` of remaining deliveries. -/
def topConcl {C : Type} (net : Net C) (ds : List (Nat × Nat × C))
    (st st' : RState C) (tr : List Ev) : Prop :=
  (∀ p q, net.ntype p ≠ NType.input →
    (st.received (p, q) < need net p q ∨ need net p q = 0 →
      st'.received (p, q) = (st.received (p, q) + dcount tr p q) % need net p q ∧
      fcount tr p q = (st.received (p, q) + dcount tr p q) / need net p q) ∧
    (dcount tr p q = 0 →
      st'.received (p, q) = st.received (p, q) ∧ fcount tr p q = 0)) ∧
  (∀ p q, net.ntype p = NType.input →
    st'.received (p, q) = st.received (p, q) ∧ st'.fs (p, q) = st.fs (p, q) ∧
    dcount tr p q = dlvCount ds p q ∧ fcount tr p q = dlvCount ds p q) ∧
  (∀ p q, dcount tr p q = dlvCount ds p q + firesSum tr (inCh net p q)) ∧
  (sumFsInv net st → sumFsInv net st') ∧
  (∀ p q, net.ntype p = NType.transfer →
    (st'.fs (p, q) = none ↔ (st.fs (p, q) = none ∧ dcount tr p q = 0))) ∧
  st'.gs = st.gs

/-- C1: on a convolution edge, `forward(f)` stores `f` as `last_input` and
returns `convolve_sparse(f, W, in_stride)`; the matching `backward(g)`
then returns `convolve_sparse_inverse(g, W, in_stride)` and updates the
filter with `convolve_sparse_flipped(last_input, g, in_stride)` where
`last_input` is exactly the cube passed to `forward`. -/
theorem c1_filter_edge_protocol
    (conv inv flip : List ℚ → List ℚ → Vec3 → List ℚ)
    (s : Vec3) (f g : List ℚ) (st : FilterEdgeState) :
    (filter_edge_forward conv s f st).1 = conv f st.filt.W s ∧
    (filter_edge_forward conv s f st).2.last_input = some f ∧
    filter_edge_backward inv flip s g (filter_edge_forward conv s f st).2 =
      some (inv g st.filt.W s,
        { filt := st.filt.update (flip f g s), last_input := some f }) :=
  ⟨rfl, rfl, rfl⟩

/-- C10: a convolution edge's `backward` computes both the upstream
gradient and the weight gradient from the weights as they stand before
`filter::update` runs; the update is applied afterwards and does not feed
back into either gradient of the same call. -/
theorem c10_backward_uses_preupdate_weights
    (inv flip : List ℚ → List ℚ → Vec3 → List ℚ) (s : Vec3) (g li : List ℚ)
    (st : FilterEdgeState) (h : st.last_input = some li) :
    filter_edge_backward inv flip s g st =
      some (inv g st.filt.W s, { st with filt := st.filt.update (flip li g s) }) := by
  unfold filter_edge_backward
  rw [h]

/-- Witness for C10 at a concrete edge state. -/
theorem c10_backward_uses_preupdate_weights_witness :
    exFES.last_input = some [2] ∧
    filter_edge_backward (fun a b _ => cadd a b) (fun a _ _ => a) Vec3.one [4] exFES =
      some (cadd [4] exFES.filt.W,
        { exFES with filt := exFES.filt.update [2] }) :=
  ⟨rfl, c10_backward_uses_preupdate_weights
    (fun a b _ => cadd a b) (fun a _ _ => a) Vec3.one [4] [2] exFES rfl⟩

/-- C4: when a transfer channel fires on backward (arrivals reach the
fan-out, or the fan-out is zero) it dispatches the `phi'`-multiplied
accumulated gradient to every in-edge, updates the channel bias with that
gradient's scalar sum, and ends with the feature map and gradient buffer
released and the received counter reset. -/
theorem c4_transfer_backward_fire {C} (t : TransferNB C) (n : Nat) (g : C)
    (st : TransferSt C) (hn : n < t.size)
    (hfire : st.received n + 1 = t.numOut n ∨ t.numOut n = 0)
    (fv v : C) (hfs : st.fs n = some fv)
    (hacc : (if st.received n = 0 then some g
             else (st.gs n).map (fun a => t.addc a g)) = some v) :
    ∃ out, transfer_backward t n g st = some out ∧
      out.2 = List.replicate (t.numIn n) (t.apply_grad v fv) ∧
      out.1.biases n = (st.biases n).update (t.sumc (t.apply_grad v fv)) ∧
      out.1.fs n = none ∧ out.1.gs n = none ∧ out.1.received n = 0 := by
  have hfire' := eq_true hfire
  simp only [transfer_backward, if_pos hn, hacc, hfire', if_true, hfs]
  exact ⟨_, rfl, rfl, by simp, by simp, by simp, by simp⟩

/-- Witness for C4 on a concrete terminal transfer channel. -/
theorem c4_transfer_backward_fire_witness :
    ∃ out, transfer_backward exTNB 0 4 exTSt = some out ∧
      out.2 = List.replicate (exTNB.numIn 0) (exTNB.apply_grad 4 3) := by
  obtain ⟨out, h1, h2, -⟩ :=
    c4_transfer_backward_fire exTNB 0 4 exTSt (by decide) (Or.inr rfl) 3 4 rfl rfl
  exact ⟨out, h1, h2⟩

/-- C6 (code bug): `network::backward` checks the size of its argument
against the number of input node groups, so a gradient map matching the
output nodes exactly is rejected whenever the input and output counts
differ; here one input and two outputs. -/
theorem c6_backward_checks_reject_valid_arg :
    valid_backward_arg exNames exFout ∧ backward_checks exNames exFout = false :=
  ⟨rfl, rfl⟩

/-- C7 (code bug): in the `filters`-absent branch the byte string is built
from the initializer buffer only after `delete []`, so the loaded value is
a read of freed memory and in particular is never the initializer's
output. -/
theorem c7_filters_read_after_delete (initf : Nat → List ℚ) (n_values : Nat) :
    filter_values_from_init initf n_values = none ∧
    filter_values_from_init initf n_values ≠ some (initf n_values) := by
  refine ⟨rfl, ?_⟩
  intro h
  simp [filter_values_from_init, read_buf, delete_buf, fill_buf, new_buf] at h

/-- The cartesian wiring is the list product of the channel ranges. -/
theorem filter_edges_pairs_eq_product (n m : Nat) :
    filter_edges_pairs n m = List.range n ×ˢ List.range m := rfl

/-- The cartesian wiring has no duplicate pair. -/
theorem filter_edges_pairs_nodup (n m : Nat) : (filter_edges_pairs n m).Nodup := by
  rw [filter_edges_pairs_eq_product]
  exact List.Nodup.product (List.nodup_range n) (List.nodup_range m)

/-- Every in-range pair occurs in the cartesian wiring. -/
theorem filter_edges_pairs_mem (n m i j : Nat) (hi : i < n) (hj : j < m) :
    (i, j) ∈ filter_edges_pairs n m := by
  rw [filter_edges_pairs_eq_product]
  exact List.mem_product.2 ⟨List.mem_range.2 hi, List.mem_range.2 hj⟩

/-- The diagonal wiring has no duplicate pair. -/
theorem diag_pairs_nodup (k : Nat) : (diag_pairs k).Nodup :=
  List.Nodup.map (fun _ _ h => congrArg Prod.fst h) (List.nodup_range k)

/-- Counting an element of a list is independent of the `BEq` instance as
long as it is lawful. -/
theorem count_instance_free {α} [DecidableEq α] [inst : BEq α] [LawfulBEq α]
    (a : α) (l : List α) :
    l.count a = @List.count α instBEqOfDecidableEq a l := by
  unfold List.count
  apply List.countP_congr
  intro x _
  simp [beq_iff_eq]

/-- C8: a convolution edge group between an `n`-channel upstream and an
`m`-channel downstream creates exactly `n·m` edges, the edge for `(i,j)`
appearing exactly once overall, once in the upstream's `out_edges[i]` and
once in the downstream's `in_edges[j]`; pooling and identity edge groups
require equal channel counts and create exactly `n` diagonal edges wiring
channel `i` to channel `i`. -/
theorem c8_edge_group_wiring (n m : Nat) (es : List (Nat × Nat))
    (hf : filter_edges_ctor n m = some es) :
    (es.length = n * m ∧
     ∀ i j, i < n → j < m →
       es.count (i, j) = 1 ∧
       (out_edges_at es i).count (i, j) = 1 ∧
       (in_edges_at es j).count (i, j) = 1) ∧
    (∀ k l, k ≠ l → dummy_edges_ctor k l = none ∧ max_pooling_edges_ctor k l = none) ∧
    (∀ k, dummy_edges_ctor k k = some (diag_pairs k) ∧
          max_pooling_edges_ctor k k = some (diag_pairs k) ∧
          (diag_pairs k).length = k ∧
          (∀ p ∈ diag_pairs k, p.1 = p.2) ∧
          (∀ i, i < k →
            (diag_pairs k).count (i, i) = 1 ∧
            (out_edges_at (diag_pairs k) i).count (i, i) = 1 ∧
            (in_edges_at (diag_pairs k) i).count (i, i) = 1)) := by
  have hes : es = filter_edges_pairs n m := by
    by_cases h : 0 < n ∧ 0 < m
    · simpa [filter_edges_ctor, h] using hf.symm
    · simp [filter_edges_ctor, h] at hf
  subst hes
  refine ⟨⟨?_, ?_⟩, ?_, ?_⟩
  · rw [filter_edges_pairs_eq_product, List.length_product,
      List.length_range, List.length_range]
  · intro i j hi hj
    have hmem := filter_edges_pairs_mem n m i j hi hj
    have hone := (count_instance_free (i, j) (filter_edges_pairs n m)).trans
      (List.count_eq_one_of_mem (filter_edges_pairs_nodup n m) hmem)
    refine ⟨hone, ?_, ?_⟩
    · rw [out_edges_at, List.count_filter (by simp)]
      exact hone
    · rw [in_edges_at, List.count_filter (by simp)]
      exact hone
  · intro k l hkl
    constructor <;> simp [dummy_edges_ctor, max_pooling_edges_ctor, hkl]
  · intro k
    have hdiagmem : ∀ i, i < k → (i, i) ∈ diag_pairs k := by
      intro i hi
      exact List.mem_map.2 ⟨i, List.mem_range.2 hi, rfl⟩
    refine ⟨by simp [dummy_edges_ctor, diag_pairs],
      by simp [max_pooling_edges_ctor, diag_pairs], by simp [diag_pairs], ?_, ?_⟩
    · intro p hp
      obtain ⟨i, -, rfl⟩ := List.mem_map.1 hp
      rfl
    · intro i hi
      have hone := (count_instance_free (i, i) (diag_pairs k)).trans
        (List.count_eq_one_of_mem (diag_pairs_nodup k) (hdiagmem i hi))
      refine ⟨hone, ?_, ?_⟩
      · rw [out_edges_at, List.count_filter (by simp)]
        exact hone
      · rw [in_edges_at, List.count_filter (by simp)]
        exact hone

/-- Witness for C8 on the concrete channel counts 2 and 3. -/
theorem c8_edge_group_wiring_witness :
    filter_edges_ctor 2 3 = some (filter_edges_pairs 2 3) ∧
    (filter_edges_pairs 2 3).length = 2 * 3 ∧
    (filter_edges_pairs 2 3).count (1, 2) = 1 ∧
    dummy_edges_ctor 2 3 = none ∧
    dummy_edges_ctor 2 2 = some (diag_pairs 2) := by
  have h := c8_edge_group_wiring 2 3 (filter_edges_pairs 2 3) rfl
  exact ⟨rfl, h.1.1, (h.1.2 1 2 (by decide) (by decide)).1,
    (h.2.1 2 3 (by decide)).1, (h.2.2 2).1⟩

/-- A positive vector is not the zero vector. -/
theorem posV_ne_zero {a : Vec3} (h : posV a) : a ≠ Vec3.zero := by
  intro hz
  rw [hz] at h
  exact absurd h.1 (by norm_num [Vec3.zero])

/-- Component-wise products preserve positivity. -/
theorem posV_vmul {a b : Vec3} (ha : posV a) (hb : posV b) : posV (vmul a b) := by
  obtain ⟨h1, h2, h3⟩ := ha
  obtain ⟨g1, g2, g3⟩ := hb
  refine ⟨?_, ?_, ?_⟩ <;> simp only [vmul] <;> nlinarith

/-- The fov propagation step `(fov-1)*stride + width` preserves
positivity. -/
theorem posV_fov_step {f s w : Vec3} (hf : posV f) (hs : posV s) (hw : posV w) :
    posV (vadd (vmul (vsub f Vec3.one) s) w) := by
  obtain ⟨hf1, hf2, hf3⟩ := hf
  obtain ⟨hs1, hs2, hs3⟩ := hs
  obtain ⟨hw1, hw2, hw3⟩ := hw
  refine ⟨?_, ?_, ?_⟩ <;> simp only [vadd, vmul, vsub, Vec3.one] <;> nlinarith

/-- The fsize propagation step `(width-1)*in_stride + fsize` preserves
positivity, the `in_stride` being either unset or positive. -/
theorem posV_fsize_step {w i fs : Vec3} (hw : posV w)
    (hi : i = Vec3.zero ∨ posV i) (hfs : posV fs) :
    posV (vadd (vmul (vsub w Vec3.one) i) fs) := by
  obtain ⟨hw1, hw2, hw3⟩ := hw
  obtain ⟨hfs1, hfs2, hfs3⟩ := hfs
  rcases hi with rfl | ⟨hi1, hi2, hi3⟩ <;>
    refine ⟨?_, ?_, ?_⟩ <;>
    simp only [vadd, vmul, vsub, Vec3.one, Vec3.zero] <;> nlinarith

/-- Membership in the out-edge index list. -/
theorem mem_outIdx {g : GGraph} {n ei : Nat} :
    ei ∈ outIdx g n ↔ ei < g.edges.length ∧ (edgeAt g ei).src = n := by
  simp [outIdx, List.mem_filter, List.mem_range]

/-- Membership in the in-edge index list. -/
theorem mem_inIdx {g : GGraph} {n ei : Nat} :
    ei ∈ inIdx g n ↔ ei < g.edges.length ∧ (edgeAt g ei).dst = n := by
  simp [inIdx, List.mem_filter, List.mem_range]

/-- An in-range edge index denotes a member of the edge list. -/
theorem edgeAt_mem {g : GGraph} {ei : Nat} (h : ei < g.edges.length) :
    edgeAt g ei ∈ g.edges := by
  rw [edgeAt, List.getD_eq_getElem g.edges dfltE h]
  exact List.getElem_mem h

/-- Postconditions of consecutive stride-pass steps compose. -/
theorem sConcl_trans {g : GGraph} {st1 st2 st3 : GState} {X : List Nat}
    (h12 : sConcl g st1 st2 X) (h23 : sConcl g st2 st3 X) :
    sConcl g st1 st3 X := by
  obtain ⟨m12, x12, -, -, -, f12a, f12b, f12c⟩ := h12
  obtain ⟨m23, x23, ok3, inv3, inv3', f23a, f23b, f23c⟩ := h23
  refine ⟨?_, ?_, ok3, inv3, inv3', ?_, ?_, ?_⟩
  · intro m hm
    rw [m23 m (by rw [m12 m hm]; exact hm), m12 m hm]
  · intro ei hei
    rw [x23 ei hei, x12 ei hei]
  · rw [f23a, f12a]
  · rw [f23b, f12b]
  · rw [f23c, f12c]

/-- Main specification of `stride_pass`, by induction on fuel, for both
call shapes.  `X` is the set of edges whose loop frames are suspended on
the call stack: their upstream nodes are already visited, their relation
is established by the suspended caller after this call returns. -/
theorem stride_pass_spec (g : GGraph) (hpos : edgesPos g) : ∀ fuel : Nat,
    (∀ n s st st' X, stride_pass g fuel (.node n s) st = some st' →
      posV s → strideInv st → inStrideInv st → sHypX g st X → sOKout g st X →
      sConcl g st st' X ∧ st'.stride n = s) ∧
    (∀ todo s st st' X, stride_pass g fuel (.loop todo s) st = some st' →
      posV s → strideInv st → inStrideInv st → sHypX g st X →
      (∀ ei ∈ todo, ei < g.edges.length ∧ st.stride (edgeAt g ei).src = s ∧ ei ∉ X) →
      sOKout g st (X ++ todo) →
      sConcl g st st' X) := by
  intro fuel
  induction fuel with
  | zero =>
    refine ⟨fun n s st st' X hrun => ?_, fun todo s st st' X hrun => ?_⟩ <;>
      simp [stride_pass] at hrun
  | succ fuel ih =>
    obtain ⟨ihN, ihL⟩ := ih
    constructor
    · -- node call
      intro n s st st' X hrun hs hSI hII hX hOK
      simp only [stride_pass] at hrun
      by_cases hv : st.stride n = Vec3.zero
      · -- unvisited: record the stride, then run the out-edge loop
        rw [if_neg (not_not_intro hv)] at hrun
        have hst1s : ∀ m, ({ st with stride := Function.update st.stride n s } : GState).stride m
            = if m = n then s else st.stride m := fun m => by
          simp [Function.update_apply]
        have hSI1 : strideInv { st with stride := Function.update st.stride n s } := by
          intro m
          rw [hst1s]
          split
          · exact Or.inr hs
          · exact hSI m
        have hX1 : sHypX g { st with stride := Function.update st.stride n s } X := by
          intro ei hei
          obtain ⟨h1, h2⟩ := hX ei hei
          refine ⟨h1, ?_⟩
          rw [hst1s]
          split
          · exact posV_ne_zero hs
          · exact h2
        have htodo1 : ∀ ei ∈ outIdx g n,
            ei < g.edges.length ∧
            ({ st with stride := Function.update st.stride n s } : GState).stride (edgeAt g ei).src = s ∧
            ei ∉ X := by
          intro ei hei
          obtain ⟨h1, h2⟩ := mem_outIdx.1 hei
          refine ⟨h1, by rw [hst1s, if_pos h2], ?_⟩
          intro hmm
          exact (hX ei hmm).2 (by rw [h2]; exact hv)
        have hOK1 : sOKout g { st with stride := Function.update st.stride n s }
            (X ++ outIdx g n) := by
          intro ei hei hnot hsrc
          have hnX : ei ∉ X := fun hmm => hnot (List.mem_append_left _ hmm)
          have hnT : ei ∉ outIdx g n := fun hmm => hnot (List.mem_append_right _ hmm)
          have hsrcne : (edgeAt g ei).src ≠ n := fun hq => hnT (mem_outIdx.2 ⟨hei, hq⟩)
          rw [hst1s, if_neg hsrcne] at hsrc
          have hok := hOK ei hei hnX hsrc
          have hdstpos : posV (st.stride (edgeAt g ei).dst) := by
            rw [hok.2]
            exact posV_vmul ((hSI _).resolve_left hsrc) (hpos _ (edgeAt_mem hei)).2
          have hdstne : (edgeAt g ei).dst ≠ n := by
            intro hq
            rw [hq] at hdstpos
            exact posV_ne_zero hdstpos hv
          constructor
          · rw [hst1s, if_neg hsrcne]
            exact hok.1
          · rw [hst1s, if_neg hdstne, hst1s, if_neg hsrcne]
            exact hok.2
        have hres := ihL (outIdx g n) s _ st' X hrun hs hSI1 hII hX1 htodo1 hOK1
        obtain ⟨hmono, hxf, hok', hsi', hii', hfr⟩ := hres
        have hs1n : ({ st with stride := Function.update st.stride n s } : GState).stride n = s := by
          rw [hst1s, if_pos rfl]
        refine ⟨⟨?_, ?_, hok', hsi', hii', hfr⟩, ?_⟩
        · intro m hm
          have hmn : m ≠ n := fun hq => hm (by rw [hq]; exact hv)
          have := hmono m (by rw [hst1s, if_neg hmn]; exact hm)
          rw [this, hst1s, if_neg hmn]
        · intro ei hei
          exact hxf ei hei
        · rw [hmono n (by rw [hs1n]; exact posV_ne_zero hs), hs1n]
      · -- visited: the assertion forces agreement and nothing changes
        rw [if_pos hv] at hrun
        by_cases he : st.stride n = s
        · rw [if_pos he] at hrun
          obtain rfl : st = st' := Option.some.inj hrun
          exact ⟨⟨fun m _ => rfl, fun ei _ => rfl, hOK, hSI, hII, rfl, rfl, rfl⟩, he⟩
        · rw [if_neg he] at hrun
          exact absurd hrun (by simp)
    · -- loop call
      intro todo s st st' X hrun hs hSI hII hX htodo hOK
      match todo with
      | [] =>
        simp only [stride_pass] at hrun
        obtain rfl : st = st' := Option.some.inj hrun
        rw [List.append_nil] at hOK
        exact ⟨fun m _ => rfl, fun ei _ => rfl, hOK, hSI, hII, rfl, rfl, rfl⟩
      | ei :: rest =>
        simp only [stride_pass] at hrun
        obtain ⟨heil, heis, heiX⟩ := htodo ei (List.mem_cons_self ei rest)
        cases hmid : stride_pass g fuel
            (.node (edgeAt g ei).dst (vmul s (edgeAt g ei).stride))
            { st with inStride := Function.update st.inStride ei s } with
        | none => rw [hmid] at hrun; exact absurd hrun (by simp)
        | some stb =>
          rw [hmid] at hrun
          -- properties of the intermediate state
          have hsta_i : ∀ ej, ({ st with inStride := Function.update st.inStride ei s } : GState).inStride ej
              = if ej = ei then s else st.inStride ej := fun ej => by
            simp [Function.update_apply]
          have hII1 : inStrideInv { st with inStride := Function.update st.inStride ei s } := by
            intro ej
            rw [hsta_i]
            split
            · exact Or.inr hs
            · exact hII ej
          have hX1 : sHypX g { st with inStride := Function.update st.inStride ei s }
              (ei :: (rest ++ X)) := by
            intro ej hej
            rcases List.mem_cons.1 hej with rfl | hej'
            · exact ⟨heil, by rw [heis]; exact posV_ne_zero hs⟩
            · rcases List.mem_append.1 hej' with hej2 | hej2
              · obtain ⟨h1, h2, -⟩ := htodo ej (List.mem_cons_of_mem _ hej2)
                exact ⟨h1, by rw [h2]; exact posV_ne_zero hs⟩
              · exact hX ej hej2
          have hOK1 : sOKout g { st with inStride := Function.update st.inStride ei s }
              (ei :: (rest ++ X)) := by
            intro ej hej hnot hsrc
            have hne : ej ≠ ei := fun hq => hnot (hq ▸ List.mem_cons_self ei (rest ++ X))
            have hnR : ej ∉ rest := fun hmm =>
              hnot (List.mem_cons_of_mem _ (List.mem_append_left _ hmm))
            have hnX : ej ∉ X := fun hmm =>
              hnot (List.mem_cons_of_mem _ (List.mem_append_right _ hmm))
            have hok := hOK ej hej (by
              intro hmm
              rcases List.mem_append.1 hmm with h | h
              · exact hnX h
              · rcases List.mem_cons.1 h with rfl | h2
                · exact hne rfl
                · exact hnR h2) hsrc
            exact ⟨by rw [hsta_i, if_neg hne]; exact hok.1, hok.2⟩
          have hposm : posV (vmul s (edgeAt g ei).stride) :=
            posV_vmul hs (hpos _ (edgeAt_mem heil)).2
          have hresN := ihN (edgeAt g ei).dst (vmul s (edgeAt g ei).stride) _ stb
            (ei :: (rest ++ X)) hmid hposm hSI hII1 hX1 hOK1
          obtain ⟨⟨hmonoN, hxfN, hokN, hsiN, hiiN, hfrN⟩, hdstN⟩ := hresN
          -- the processed edge now satisfies the stride relation
          have hsrcb : stb.stride (edgeAt g ei).src = s := by
            rw [hmonoN _ (by rw [heis]; exact posV_ne_zero hs), heis]
          have hib : stb.inStride ei = s := by
            rw [hxfN ei (List.mem_cons_self _ _), hsta_i, if_pos rfl]
          -- run the rest of the loop
          have hX2 : sHypX g stb X := by
            intro ej hej
            obtain ⟨h1, h2⟩ := hX ej hej
            refine ⟨h1, ?_⟩
            rw [hmonoN _ h2]
            exact h2
          have htodo2 : ∀ ej ∈ rest,
              ej < g.edges.length ∧ stb.stride (edgeAt g ej).src = s ∧ ej ∉ X := by
            intro ej hej
            obtain ⟨h1, h2, h3⟩ := htodo ej (List.mem_cons_of_mem _ hej)
            refine ⟨h1, ?_, h3⟩
            rw [hmonoN _ (by rw [h2]; exact posV_ne_zero hs), h2]
          have hOK2 : sOKout g stb (X ++ rest) := by
            intro ej hej hnot hsrc
            have hnX : ej ∉ X := fun hmm => hnot (List.mem_append_left _ hmm)
            have hnR : ej ∉ rest := fun hmm => hnot (List.mem_append_right _ hmm)
            by_cases hje : ej = ei
            · subst hje
              refine ⟨?_, ?_⟩
              · rw [hib, hsrcb]
              · rw [hsrcb, hdstN]
            · exact hokN ej hej (by
                intro hmm
                rcases List.mem_cons.1 hmm with h | h
                · exact hje h
                · rcases List.mem_append.1 h with h2 | h2
                  · exact hnR h2
                  · exact hnX h2) hsrc
          have hresL := ihL rest s stb st' X hrun hs hsiN hiiN hX2 htodo2 hOK2
          obtain ⟨hmonoL, hxfL, hokL, hsiL, hiiL, hfrL⟩ := hresL
          -- compose
          refine ⟨?_, ?_, hokL, hsiL, hiiL, ?_, ?_, ?_⟩
          · intro m hm
            rw [hmonoL m (by rw [hmonoN m hm]; exact hm), hmonoN m hm]
          · intro ej hej
            have hne : ej ≠ ei := fun hq => heiX (hq ▸ hej)
            rw [hxfL ej hej,
              hxfN ej (List.mem_cons_of_mem _ (List.mem_append_right _ hej)),
              hsta_i, if_neg hne]
          · rw [hfrL.1, hfrN.1]
          · rw [hfrL.2.1, hfrN.2.1]
          · rw [hfrL.2.2, hfrN.2.2]

/-- The unit vector is positive. -/
theorem posV_one : posV Vec3.one := by
  refine ⟨?_, ?_, ?_⟩ <;> norm_num [Vec3.one]

/-- Pointwise description of `setAll`. -/
theorem setAll_apply (l : List Nat) (v : Vec3) (f : Nat → Vec3) (x : Nat) :
    setAll l v f x = if x ∈ l then v else f x := by
  induction l generalizing f with
  | nil => simp [setAll]
  | cons a l ihl =>
    show setAll l v (Function.update f a v) x = _
    rw [ihl]
    by_cases hx : x ∈ l
    · rw [if_pos hx, if_pos (List.mem_cons_of_mem _ hx)]
    · rw [if_neg hx, Function.update_apply]
      by_cases hxa : x = a
      · rw [if_pos hxa, if_pos (by rw [hxa]; exact List.mem_cons_self _ _)]
      · rw [if_neg hxa, if_neg (by
          intro hmm
          rcases List.mem_cons.1 hmm with h | h
          · exact hxa h
          · exact hx h)]

/-- Postconditions of consecutive fov-pass steps compose. -/
theorem fConcl_trans {g : GGraph} {st1 st2 st3 : GState} {X1 X2 : List Nat}
    (h12 : fConcl g st1 st2 X1) (h23 : fConcl g st2 st3 X2) :
    fConcl g st1 st3 X2 := by
  obtain ⟨m12, -, -, -, f12a, f12b⟩ := h12
  obtain ⟨m23, ok3, in3, inv3, f23a, f23b⟩ := h23
  refine ⟨?_, ok3, in3, inv3, ?_, ?_⟩
  · intro m hm
    obtain ⟨ha, hb⟩ := m12 m hm
    obtain ⟨hc, hd⟩ := m23 m (by rw [ha]; exact hm)
    exact ⟨by rw [hc, ha], by rw [hd, hb]⟩
  · rw [f23a, f12a]
  · rw [f23b, f12b]

/-- Main specification of `fov_pass`, by induction on fuel, for both call
shapes.  `X` is the set of in-edges of suspended loop frames. -/
theorem fov_pass_spec (g : GGraph) (hpos : edgesPos g) : ∀ fuel : Nat,
    (∀ n fov fsize st st' X, fov_pass g fuel (.node n fov fsize) st = some st' →
      posV fov → posV fsize → fovInv st → inStrideInv st →
      fHypX g st X → fOKout g st X → fInOKall g st →
      fConcl g st st' X ∧ st'.fov n = fov ∧ st'.fsize n = fsize) ∧
    (∀ todo fov fsize st st' X, fov_pass g fuel (.loop todo fov fsize) st = some st' →
      posV fov → posV fsize → fovInv st → inStrideInv st →
      fHypX g st X →
      (∀ ei ∈ todo, ei < g.edges.length ∧ st.fov (edgeAt g ei).dst = fov ∧
        st.fsize (edgeAt g ei).dst = fsize ∧ ei ∉ X) →
      fOKout g st (X ++ todo) → fInOKall g st →
      fConcl g st st' X) := by
  intro fuel
  induction fuel with
  | zero =>
    refine ⟨fun n fov fsize st st' X hrun => ?_,
      fun todo fov fsize st st' X hrun => ?_⟩ <;> simp [fov_pass] at hrun
  | succ fuel ih =>
    obtain ⟨ihN, ihL⟩ := ih
    constructor
    · -- node call
      intro n fov fsize st st' X hrun hf hz hFI hII hX hOK hIn
      simp only [fov_pass] at hrun
      by_cases hv : st.fov n = Vec3.zero
      · -- unvisited
        rw [if_neg (not_not_intro hv)] at hrun
        set st1 : GState :=
          { st with inFsize := setAll (outIdx g n) fsize st.inFsize,
                    fov := Function.update st.fov n fov,
                    fsize := Function.update st.fsize n fsize } with hst1def
        have hst1f : ∀ m, st1.fov m = if m = n then fov else st.fov m := fun m => by
          simp [hst1def, Function.update_apply]
        have hst1z : ∀ m, st1.fsize m = if m = n then fsize else st.fsize m := fun m => by
          simp [hst1def, Function.update_apply]
        have hst1i : ∀ ei, st1.inFsize ei = if ei ∈ outIdx g n then fsize else st.inFsize ei :=
          fun ei => setAll_apply _ _ _ _
        have hsrcne : ∀ ei, ei < g.edges.length → st.fov (edgeAt g ei).dst ≠ Vec3.zero →
            fOK g st ei → (edgeAt g ei).src ≠ n := by
          intro ei hei hdst hok hq
          have hpose : posV (st.fov (edgeAt g ei).src) := by
            rw [hok.1]
            exact posV_fov_step ((hFI _).resolve_left hdst).1
              (hpos _ (edgeAt_mem hei)).2 (hpos _ (edgeAt_mem hei)).1
          rw [hq] at hpose
          exact posV_ne_zero hpose hv
        have hFI1 : fovInv st1 := by
          intro m
          rw [hst1f, hst1z]
          by_cases hm : m = n
          · rw [if_pos hm, if_pos hm]
            exact Or.inr ⟨hf, hz⟩
          · rw [if_neg hm, if_neg hm]
            exact hFI m
        have hX1 : fHypX g st1 X := by
          intro ei hei
          obtain ⟨h1, h2⟩ := hX ei hei
          refine ⟨h1, ?_⟩
          rw [hst1f]
          split
          · exact posV_ne_zero hf
          · exact h2
        have htodo1 : ∀ ei ∈ inIdx g n,
            ei < g.edges.length ∧ st1.fov (edgeAt g ei).dst = fov ∧
            st1.fsize (edgeAt g ei).dst = fsize ∧ ei ∉ X := by
          intro ei hei
          obtain ⟨h1, h2⟩ := mem_inIdx.1 hei
          refine ⟨h1, by rw [hst1f, if_pos h2], by rw [hst1z, if_pos h2], ?_⟩
          intro hmm
          exact (hX ei hmm).2 (by rw [h2]; exact hv)
        have hOK1 : fOKout g st1 (X ++ inIdx g n) := by
          intro ei hei hnot hdst
          have hnX : ei ∉ X := fun hmm => hnot (List.mem_append_left _ hmm)
          have hnT : ei ∉ inIdx g n := fun hmm => hnot (List.mem_append_right _ hmm)
          have hdstne : (edgeAt g ei).dst ≠ n := fun hq => hnT (mem_inIdx.2 ⟨hei, hq⟩)
          rw [hst1f, if_neg hdstne] at hdst
          have hok := hOK ei hei hnX hdst
          have hsn := hsrcne ei hei hdst hok
          constructor
          · rw [hst1f, if_neg hsn, hst1f, if_neg hdstne]
            exact hok.1
          · rw [hst1z, if_neg hsn, hst1z, if_neg hdstne]
            show st.fsize _ = vadd (vmul (vsub _ Vec3.one) (st.inStride ei)) _
            exact hok.2
        have hIn1 : fInOKall g st1 := by
          intro ei hei hsrc
          by_cases hsn : (edgeAt g ei).src = n
          · have hmem : ei ∈ outIdx g n := mem_outIdx.2 ⟨hei, hsn⟩
            show st1.inFsize ei = st1.fsize (edgeAt g ei).src
            rw [hst1i, if_pos hmem, hst1z, if_pos hsn]
          · rw [hst1f, if_neg hsn] at hsrc
            have hok := hIn ei hei hsrc
            show st1.inFsize ei = st1.fsize (edgeAt g ei).src
            rw [hst1i, if_neg (by
                intro hmm
                exact hsn (mem_outIdx.1 hmm).2),
              hst1z, if_neg hsn]
            exact hok
        have hres := ihL (inIdx g n) fov fsize st1 st' X hrun hf hz hFI1 hII hX1 htodo1 hOK1 hIn1
        obtain ⟨hmono, hok', hin', hinv', hfr'⟩ := hres
        have hs1n : st1.fov n = fov := by rw [hst1f, if_pos rfl]
        have hs1z : st1.fsize n = fsize := by rw [hst1z, if_pos rfl]
        have hkeep := hmono n (by rw [hs1n]; exact posV_ne_zero hf)
        refine ⟨⟨?_, hok', hin', hinv', hfr'.1, hfr'.2⟩, ?_, ?_⟩
        · intro m hm
          have hmn : m ≠ n := fun hq => hm (by rw [hq]; exact hv)
          obtain ⟨ha, hb⟩ := hmono m (by rw [hst1f, if_neg hmn]; exact hm)
          exact ⟨by rw [ha, hst1f, if_neg hmn], by rw [hb, hst1z, if_neg hmn]⟩
        · rw [hkeep.1, hs1n]
        · rw [hkeep.2, hs1z]
      · -- visited: assertion forces agreement
        rw [if_pos hv] at hrun
        by_cases he : st.fsize n = fsize ∧ st.fov n = fov
        · rw [if_pos he] at hrun
          obtain rfl : st = st' := Option.some.inj hrun
          exact ⟨⟨fun m _ => ⟨rfl, rfl⟩, hOK, hIn, hFI, rfl, rfl⟩, he.2, he.1⟩
        · rw [if_neg he] at hrun
          exact absurd hrun (by simp)
    · -- loop call
      intro todo fov fsize st st' X hrun hf hz hFI hII hX htodo hOK hIn
      match todo with
      | [] =>
        simp only [fov_pass] at hrun
        obtain rfl : st = st' := Option.some.inj hrun
        rw [List.append_nil] at hOK
        exact ⟨fun m _ => ⟨rfl, rfl⟩, hOK, hIn, hFI, rfl, rfl⟩
      | ei :: rest =>
        simp only [fov_pass] at hrun
        obtain ⟨heil, heidf, heidz, heiX⟩ := htodo ei (List.mem_cons_self ei rest)
        cases hmid : fov_pass g fuel
            (.node (edgeAt g ei).src
              (vadd (vmul (vsub fov Vec3.one) (edgeAt g ei).stride) (edgeAt g ei).width)
              (vadd (vmul (vsub (edgeAt g ei).width Vec3.one) (st.inStride ei)) fsize)) st with
        | none => rw [hmid] at hrun; exact absurd hrun (by simp)
        | some stb =>
          rw [hmid] at hrun
          have hX1 : fHypX g st (ei :: (rest ++ X)) := by
            intro ej hej
            rcases List.mem_cons.1 hej with rfl | hej'
            · exact ⟨heil, by rw [heidf]; exact posV_ne_zero hf⟩
            · rcases List.mem_append.1 hej' with hej2 | hej2
              · obtain ⟨h1, h2, -, -⟩ := htodo ej (List.mem_cons_of_mem _ hej2)
                exact ⟨h1, by rw [h2]; exact posV_ne_zero hf⟩
              · exact hX ej hej2
          have hOK1 : fOKout g st (ei :: (rest ++ X)) := by
            intro ej hej hnot hdst
            have hne : ej ≠ ei := fun hq => hnot (hq ▸ List.mem_cons_self ei (rest ++ X))
            have hnR : ej ∉ rest := fun hmm =>
              hnot (List.mem_cons_of_mem _ (List.mem_append_left _ hmm))
            have hnX : ej ∉ X := fun hmm =>
              hnot (List.mem_cons_of_mem _ (List.mem_append_right _ hmm))
            exact hOK ej hej (by
              intro hmm
              rcases List.mem_append.1 hmm with h | h
              · exact hnX h
              · rcases List.mem_cons.1 h with rfl | h2
                · exact hne rfl
                · exact hnR h2) hdst
          have hposf : posV (vadd (vmul (vsub fov Vec3.one) (edgeAt g ei).stride)
              (edgeAt g ei).width) :=
            posV_fov_step hf (hpos _ (edgeAt_mem heil)).2 (hpos _ (edgeAt_mem heil)).1
          have hposz : posV (vadd (vmul (vsub (edgeAt g ei).width Vec3.one)
              (st.inStride ei)) fsize) :=
            posV_fsize_step (hpos _ (edgeAt_mem heil)).1 (hII ei) hz
          have hresN := ihN (edgeAt g ei).src _ _ st stb (ei :: (rest ++ X)) hmid
            hposf hposz hFI hII hX1 hOK1 hIn
          obtain ⟨⟨hmonoN, hokN, hinN, hinvN, hfrN⟩, hsrcf, hsrcz⟩ := hresN
          have hdstf : stb.fov (edgeAt g ei).dst = fov := by
            rw [(hmonoN _ (by rw [heidf]; exact posV_ne_zero hf)).1, heidf]
          have hdstz : stb.fsize (edgeAt g ei).dst = fsize := by
            rw [(hmonoN _ (by rw [heidf]; exact posV_ne_zero hf)).2, heidz]
          have hfOKei : fOK g stb ei := by
            constructor
            · rw [hsrcf, hdstf]
            · rw [hsrcz, hdstz, hfrN.2]
          have hX2 : fHypX g stb X := by
            intro ej hej
            obtain ⟨h1, h2⟩ := hX ej hej
            exact ⟨h1, by rw [(hmonoN _ h2).1]; exact h2⟩
          have htodo2 : ∀ ej ∈ rest,
              ej < g.edges.length ∧ stb.fov (edgeAt g ej).dst = fov ∧
              stb.fsize (edgeAt g ej).dst = fsize ∧ ej ∉ X := by
            intro ej hej
            obtain ⟨h1, h2, h3, h4⟩ := htodo ej (List.mem_cons_of_mem _ hej)
            have hne0 : st.fov (edgeAt g ej).dst ≠ Vec3.zero := by
              rw [h2]; exact posV_ne_zero hf
            exact ⟨h1, by rw [(hmonoN _ hne0).1, h2], by rw [(hmonoN _ hne0).2, h3], h4⟩
          have hOK2 : fOKout g stb (X ++ rest) := by
            intro ej hej hnot hdst
            have hnX : ej ∉ X := fun hmm => hnot (List.mem_append_left _ hmm)
            have hnR : ej ∉ rest := fun hmm => hnot (List.mem_append_right _ hmm)
            by_cases hje : ej = ei
            · subst hje
              exact hfOKei
            · exact hokN ej hej (by
                intro hmm
                rcases List.mem_cons.1 hmm with h | h
                · exact hje h
                · rcases List.mem_append.1 h with h2 | h2
                  · exact hnR h2
                  · exact hnX h2) hdst
          have hII2 : inStrideInv stb := by
            intro ej
            rw [hfrN.2]
            exact hII ej
          have hresL := ihL rest fov fsize stb st' X hrun hf hz hinvN hII2 hX2 htodo2 hOK2 hinN
          exact fConcl_trans ⟨hmonoN, hokN, hinN, hinvN, hfrN⟩ hresL

/-- Sequencing the stride seeds: the composed postcondition, plus every
seeded node ends with unit stride. -/
theorem stride_phase (g : GGraph) (hpos : edgesPos g) (fuel : Nat) :
    ∀ seeds (st st' : GState),
      seqOpt (fun n st => stride_pass g fuel (.node n Vec3.one) st) seeds st = some st' →
      strideInv st → inStrideInv st → sOKout g st [] →
      sConcl g st st' [] ∧ ∀ n ∈ seeds, st'.stride n = Vec3.one := by
  intro seeds
  induction seeds with
  | nil =>
    intro st st' hrun hSI hII hOK
    obtain rfl : st = st' := Option.some.inj hrun
    exact ⟨⟨fun m _ => rfl, fun ei hei => absurd hei (List.not_mem_nil ei),
      hOK, hSI, hII, rfl, rfl, rfl⟩, fun n hn => absurd hn (List.not_mem_nil n)⟩
  | cons a seeds ihs =>
    intro st st' hrun hSI hII hOK
    simp only [seqOpt] at hrun
    cases hmid : stride_pass g fuel (.node a Vec3.one) st with
    | none => rw [hmid] at hrun; exact absurd hrun (by simp)
    | some st1 =>
      rw [hmid] at hrun
      have hstep := (stride_pass_spec g hpos fuel).1 a Vec3.one st st1 [] hmid
        posV_one hSI hII (fun ei hei => absurd hei (List.not_mem_nil ei)) hOK
      have ha1 := hstep.2
      obtain ⟨hmono1, -, hok1, hsi1, hii1, hfr1⟩ := hstep.1
      have hrest := ihs st1 st' hrun hsi1 hii1 hok1
      obtain ⟨hc2, hseeds⟩ := hrest
      refine ⟨sConcl_trans hstep.1 hc2, ?_⟩
      intro n hn
      rcases List.mem_cons.1 hn with rfl | hn2
      · rw [hc2.1 n (by rw [ha1]; exact posV_ne_zero posV_one), ha1]
      · exact hseeds n hn2

/-- Sequencing the fov seeds: the composed postcondition, plus every
seeded node ends with unit fov and `fsize = outsz`. -/
theorem fov_phase (g : GGraph) (hpos : edgesPos g) (fuel : Nat) (outsz : Vec3)
    (houtsz : posV outsz) :
    ∀ seeds (st st' : GState),
      seqOpt (fun n st => fov_pass g fuel (.node n Vec3.one outsz) st) seeds st = some st' →
      fovInv st → inStrideInv st → fOKout g st [] → fInOKall g st →
      fConcl g st st' [] ∧ ∀ n ∈ seeds, st'.fov n = Vec3.one ∧ st'.fsize n = outsz := by
  intro seeds
  induction seeds with
  | nil =>
    intro st st' hrun hFI hII hOK hIn
    obtain rfl : st = st' := Option.some.inj hrun
    exact ⟨⟨fun m _ => ⟨rfl, rfl⟩, hOK, hIn, hFI, rfl, rfl⟩,
      fun n hn => absurd hn (List.not_mem_nil n)⟩
  | cons a seeds ihs =>
    intro st st' hrun hFI hII hOK hIn
    simp only [seqOpt] at hrun
    cases hmid : fov_pass g fuel (.node a Vec3.one outsz) st with
    | none => rw [hmid] at hrun; exact absurd hrun (by simp)
    | some st1 =>
      rw [hmid] at hrun
      have hstep := (fov_pass_spec g hpos fuel).1 a Vec3.one outsz st st1 [] hmid
        posV_one houtsz hFI hII (fun ei hei => absurd hei (List.not_mem_nil ei)) hOK hIn
      obtain ⟨⟨hmono1, hok1, hin1, hinv1, hfr1⟩, ha1, hz1⟩ := hstep
      have hII1 : inStrideInv st1 := by
        intro ei
        rw [hfr1.2]
        exact hII ei
      have hrest := ihs st1 st' hrun hinv1 hII1 hok1 hin1
      obtain ⟨hc2, hseeds⟩ := hrest
      refine ⟨fConcl_trans ⟨hmono1, hok1, hin1, hinv1, hfr1⟩ hc2, ?_⟩
      intro n hn
      rcases List.mem_cons.1 hn with rfl | hn2
      · obtain ⟨hp, hq⟩ := hc2.1 n (by rw [ha1]; exact posV_ne_zero posV_one)
        exact ⟨by rw [hp, ha1], by rw [hq, hz1]⟩
      · exact hseeds n hn2

/-- Combined specification of `network::init`: after a successful
initialization the stride relation holds on every edge with a
stride-visited upstream node, the fov/fsize relations hold on every edge
with a fov-visited downstream node, `in_fsize` records the upstream
`fsize` on every edge with a fov-visited upstream node, all set values are
positive, inputs carry unit stride and outputs carry unit fov and
`fsize = outsz`. -/
theorem graph_init_spec (g : GGraph) (outsz : Vec3) (fuel : Nat) (st' : GState)
    (hrun : graph_init g outsz fuel = some st')
    (hpos : edgesPos g) (houtsz : posV outsz) :
    sOKout g st' [] ∧ strideInv st' ∧ inStrideInv st' ∧
    fOKout g st' [] ∧ fInOKall g st' ∧ fovInv st' ∧
    (∀ n ∈ inputsList g, st'.stride n = Vec3.one) ∧
    (∀ n ∈ outputsList g, st'.fov n = Vec3.one ∧ st'.fsize n = outsz) := by
  unfold graph_init at hrun
  cases hmid : seqOpt (fun n st => stride_pass g fuel (.node n Vec3.one) st)
      (inputsList g) gzero with
  | none => rw [hmid] at hrun; exact absurd hrun (by simp)
  | some st1 =>
    rw [hmid] at hrun
    have hsz : strideInv gzero := fun n => Or.inl rfl
    have hiz : inStrideInv gzero := fun ei => Or.inl rfl
    have hokz : sOKout g gzero [] := by
      intro ei hei hnot hsrc
      exact absurd rfl hsrc
    have hph1 := stride_phase g hpos fuel (inputsList g) gzero st1 hmid hsz hiz hokz
    obtain ⟨⟨hmono1, hxf1, hok1, hsi1, hii1, hfov1, hfsz1, hinf1⟩, hins⟩ := hph1
    have hfovz : fovInv st1 := by
      intro n
      rw [hfov1]
      exact Or.inl rfl
    have hfokz : fOKout g st1 [] := by
      intro ei hei hnot hdst
      exact absurd (by rw [hfov1]; rfl) hdst
    have hfinz : fInOKall g st1 := by
      intro ei hei hsrc
      exact absurd (by rw [hfov1]; rfl) hsrc
    have hph2 := fov_phase g hpos fuel outsz houtsz (outputsList g) st1 st' hrun
      hfovz hii1 hfokz hfinz
    obtain ⟨⟨-, hok2, hin2, hinv2, hfr2a, hfr2b⟩, houts⟩ := hph2
    refine ⟨?_, ?_, ?_, hok2, hin2, hinv2, ?_, houts⟩
    · intro ei hei hnot hsrc
      have hsrc1 : st1.stride (edgeAt g ei).src ≠ Vec3.zero := by rwa [hfr2a] at hsrc
      have h := hok1 ei hei hnot hsrc1
      unfold sOK at h ⊢
      rw [hfr2a, hfr2b]
      exact h
    · intro n
      rw [hfr2a]
      exact hsi1 n
    · intro ei
      rw [hfr2b]
      exact hii1 ei
    · intro n hn
      rw [hfr2a]
      exact hins n hn

/-- Getting an edge index back from edge membership. -/
theorem mem_edges_idx {g : GGraph} {e : GEdge} (h : e ∈ g.edges) :
    ∃ ei, ei < g.edges.length ∧ edgeAt g ei = e := by
  obtain ⟨i, hi, heq⟩ := List.getElem_of_mem h
  exact ⟨i, hi, by rw [edgeAt, List.getD_eq_getElem g.edges dfltE hi, heq]⟩

/-- Forward-reachable nodes end the stride phase with a positive
stride. -/
theorem reachFwd_pos (g : GGraph) (hpos : edgesPos g) (hval : gValid g)
    (st : GState) (hOK : sOKout g st []) (hSI : strideInv st)
    (hone : ∀ n, n < g.numNodes → g.isInput n = true → st.stride n = Vec3.one) :
    ∀ fuelR n, n < g.numNodes → reachFwdB g fuelR n = true → posV (st.stride n) := by
  intro fuelR
  induction fuelR with
  | zero =>
    intro n hn hr
    rw [hone n hn hr]
    exact posV_one
  | succ fuelR ihr =>
    intro n hn hr
    simp only [reachFwdB, Bool.or_eq_true, List.any_eq_true, Bool.and_eq_true, beq_iff_eq]
      at hr
    rcases hr with hr | ⟨e, he, rfl, hr⟩
    · rw [hone n hn hr]
      exact posV_one
    · have hsrcpos := ihr e.src (hval e he).1 hr
      obtain ⟨ei, hei, heq⟩ := mem_edges_idx he
      have hok := hOK ei hei (List.not_mem_nil ei) (by rw [heq]; exact posV_ne_zero hsrcpos)
      unfold sOK at hok
      rw [heq] at hok
      rw [hok.2]
      exact posV_vmul hsrcpos (hpos e he).2

/-- Backward-reachable nodes end the fov phase with positive fov and
fsize. -/
theorem reachBwd_pos (g : GGraph) (hpos : edgesPos g) (hval : gValid g)
    (st : GState) (outsz : Vec3) (houtsz : posV outsz)
    (hOK : fOKout g st []) (hII : inStrideInv st)
    (hone : ∀ n, n < g.numNodes → outIdx g n = [] →
      st.fov n = Vec3.one ∧ st.fsize n = outsz) :
    ∀ fuelR n, n < g.numNodes → reachBwdB g fuelR n = true →
      posV (st.fov n) ∧ posV (st.fsize n) := by
  intro fuelR
  induction fuelR with
  | zero =>
    intro n hn hr
    simp only [reachBwdB, decide_eq_true_eq] at hr
    obtain ⟨h1, h2⟩ := hone n hn hr
    exact ⟨by rw [h1]; exact posV_one, by rw [h2]; exact houtsz⟩
  | succ fuelR ihr =>
    intro n hn hr
    simp only [reachBwdB, Bool.or_eq_true, List.any_eq_true, Bool.and_eq_true,
      beq_iff_eq, decide_eq_true_eq] at hr
    rcases hr with hr | ⟨e, he, rfl, hr⟩
    · obtain ⟨h1, h2⟩ := hone n hn hr
      exact ⟨by rw [h1]; exact posV_one, by rw [h2]; exact houtsz⟩
    · obtain ⟨hdf, hdz⟩ := ihr e.dst (hval e he).2 hr
      obtain ⟨ei, hei, heq⟩ := mem_edges_idx he
      have hok := hOK ei hei (List.not_mem_nil ei) (by rw [heq]; exact posV_ne_zero hdf)
      unfold fOK at hok
      rw [heq] at hok
      constructor
      · rw [hok.1]
        exact posV_fov_step hdf (hpos e he).2 (hpos e he).1
      · rw [hok.2]
        exact posV_fsize_step (hpos e he).1 (hII ei) hdz

/-- A conflicting stride revisit makes `stride_pass` fail. -/
theorem stride_pass_conflict (g : GGraph) (fuel2 n : Nat) (s : Vec3) (st2 : GState)
    (hvis : st2.stride n ≠ Vec3.zero) (hne : st2.stride n ≠ s) :
    stride_pass g fuel2 (.node n s) st2 = none := by
  cases fuel2 with
  | zero => rfl
  | succ fuel2 =>
    simp only [stride_pass]
    rw [if_pos hvis, if_neg hne]

/-- A revisit with conflicting fov or fsize makes `fov_pass` fail. -/
theorem fov_pass_conflict (g : GGraph) (fuel2 n : Nat) (fv fz : Vec3) (st2 : GState)
    (hvis : st2.fov n ≠ Vec3.zero) (hne : st2.fov n ≠ fv ∨ st2.fsize n ≠ fz) :
    fov_pass g fuel2 (.node n fv fz) st2 = none := by
  cases fuel2 with
  | zero => rfl
  | succ fuel2 =>
    simp only [fov_pass]
    rw [if_pos hvis, if_neg (by
      intro hmm
      rcases hne with h | h
      · exact h hmm.2
      · exact h hmm.1)]

/-- C2: after a successful `network::init` on a well-formed topology —
positive edge geometry, in-range endpoints, positive `outsz`, every node
forward-reachable from an input and backward-reachable from an output —
every node's `fov`, `stride`, `fsize` are non-zero; input nodes carry
stride `(1,1,1)`; every edge satisfies
`downstream.stride = upstream.stride * edge.stride`; output nodes carry
`fov = (1,1,1)` and `fsize = outsz`; every edge satisfies the fov and
fsize relations; and a revisit of an already-visited node with a
conflicting stride, fov, or fsize is a fatal inconsistency (the pass
aborts). -/
theorem c2_graph_init_geometry (g : GGraph) (outsz : Vec3) (fuel : Nat) (st' : GState)
    (hrun : graph_init g outsz fuel = some st')
    (hpos : edgesPos g) (houtsz : posV outsz) (hval : gValid g)
    (hreach : ∀ n, n < g.numNodes →
      reachFwdB g g.numNodes n = true ∧ reachBwdB g g.numNodes n = true) :
    (∀ n, n < g.numNodes →
      st'.stride n ≠ Vec3.zero ∧ st'.fov n ≠ Vec3.zero ∧ st'.fsize n ≠ Vec3.zero) ∧
    (∀ n, n < g.numNodes → g.isInput n = true → st'.stride n = Vec3.one) ∧
    (∀ ei, ei < g.edges.length →
      st'.stride (edgeAt g ei).dst =
        vmul (st'.stride (edgeAt g ei).src) (edgeAt g ei).stride) ∧
    (∀ n, n < g.numNodes → outIdx g n = [] →
      st'.fov n = Vec3.one ∧ st'.fsize n = outsz) ∧
    (∀ ei, ei < g.edges.length →
      st'.fov (edgeAt g ei).src =
        vadd (vmul (vsub (st'.fov (edgeAt g ei).dst) Vec3.one) (edgeAt g ei).stride)
          (edgeAt g ei).width ∧
      st'.fsize (edgeAt g ei).src =
        vadd (vmul (vsub (edgeAt g ei).width Vec3.one) (st'.inStride ei))
          (st'.fsize (edgeAt g ei).dst)) ∧
    (∀ fuel2 n s st2, st2.stride n ≠ Vec3.zero → st2.stride n ≠ s →
      stride_pass g fuel2 (.node n s) st2 = none) ∧
    (∀ fuel2 n fv fz st2, st2.fov n ≠ Vec3.zero →
      (st2.fov n ≠ fv ∨ st2.fsize n ≠ fz) →
      fov_pass g fuel2 (.node n fv fz) st2 = none) := by
  obtain ⟨hsok, hsi, hii, hfok, hfin, hfinv, hins, houts⟩ :=
    graph_init_spec g outsz fuel st' hrun hpos houtsz
  have hins' : ∀ n, n < g.numNodes → g.isInput n = true → st'.stride n = Vec3.one := by
    intro n hn hi
    exact hins n (by
      rw [inputsList, List.mem_filter]
      exact ⟨List.mem_range.2 hn, hi⟩)
  have houts' : ∀ n, n < g.numNodes → outIdx g n = [] →
      st'.fov n = Vec3.one ∧ st'.fsize n = outsz := by
    intro n hn ho
    exact houts n (by
      rw [outputsList, List.mem_filter]
      exact ⟨List.mem_range.2 hn, by simp [ho]⟩)
  have hspos := reachFwd_pos g hpos hval st' hsok hsi hins'
  have hfpos := reachBwd_pos g hpos hval st' outsz houtsz hfok hii houts'
  refine ⟨?_, hins', ?_, houts', ?_, stride_pass_conflict g, fov_pass_conflict g⟩
  · intro n hn
    obtain ⟨hrf, hrb⟩ := hreach n hn
    obtain ⟨hf, hz⟩ := hfpos g.numNodes n hn hrb
    exact ⟨posV_ne_zero (hspos g.numNodes n hn hrf), posV_ne_zero hf, posV_ne_zero hz⟩
  · intro ei hei
    have hsrclt : (edgeAt g ei).src < g.numNodes := (hval _ (edgeAt_mem hei)).1
    have hsrcp := hspos g.numNodes _ hsrclt (hreach _ hsrclt).1
    exact (hsok ei hei (List.not_mem_nil ei) (posV_ne_zero hsrcp)).2
  · intro ei hei
    have hdstlt : (edgeAt g ei).dst < g.numNodes := (hval _ (edgeAt_mem hei)).2
    have hdstp := hfpos g.numNodes _ hdstlt (hreach _ hdstlt).2
    exact hfok ei hei (List.not_mem_nil ei) (posV_ne_zero hdstp.1)

/-- Witness for C2: the concrete two-node topology `exG` with
`outsz = (1,1,1)`, checking the stride relation on its single edge. -/
theorem c2_graph_init_geometry_witness :
    (graph_init exG Vec3.one 10).map (fun st' =>
      decide (st'.stride (edgeAt exG 0).dst =
        vmul (st'.stride (edgeAt exG 0).src) (edgeAt exG 0).stride)) = some true := by
  cases hrun : graph_init exG Vec3.one 10 with
  | none =>
    have hsome : (graph_init exG Vec3.one 10).isSome = true := by decide
    rw [hrun] at hsome
    simp at hsome
  | some st' =>
    have h := c2_graph_init_geometry exG Vec3.one 10 st' hrun
      (by unfold edgesPos; decide) (by decide) (by unfold gValid; decide) (by decide)
    have hedge := h.2.2.1 0 (by decide)
    simp only [Option.map]
    exact congrArg some (decide_eq_true hedge)

/-- C9 counterexample: on `exG` (one conv edge of window `(2,2,2)` from
the input to the output), after init the edge's recorded `in_fsize` is
`(2,2,2)` — the upstream node's `fsize` — and differs from the downstream
node's `fsize` `(1,1,1)` claimed by the spec. -/
theorem c9_in_fsize_counterexample :
    (graph_init exG Vec3.one 10).map (fun st' =>
      decide (st'.inFsize 0 = st'.fsize (edgeAt exG 0).dst)) = some false ∧
    (graph_init exG Vec3.one 10).map (fun st' =>
      decide (st'.inFsize 0 = st'.fsize (edgeAt exG 0).src)) = some true ∧
    (graph_init exG Vec3.one 10).map (fun st' => st'.inFsize 0) = some ⟨2, 2, 2⟩ ∧
    (graph_init exG Vec3.one 10).map (fun st' => st'.fsize (edgeAt exG 0).dst) =
      some ⟨1, 1, 1⟩ := by
  refine ⟨?_, ?_, ?_, ?_⟩ <;> decide

/-- C9 (amended): during graph initialization the passes record, for every
edge, `in_stride` equal to the upstream node's stride and `in_fsize` equal
to the upstream node's `fsize` (not the downstream's); a revisit of an
already-visited node must agree exactly on fov and fsize, else the pass
aborts. -/
theorem c9_fov_pass_records (g : GGraph) (outsz : Vec3) (fuel : Nat) (st' : GState)
    (hrun : graph_init g outsz fuel = some st')
    (hpos : edgesPos g) (houtsz : posV outsz) (hval : gValid g)
    (hreach : ∀ n, n < g.numNodes →
      reachFwdB g g.numNodes n = true ∧ reachBwdB g g.numNodes n = true) :
    (∀ ei, ei < g.edges.length → st'.inStride ei = st'.stride (edgeAt g ei).src) ∧
    (∀ ei, ei < g.edges.length → st'.inFsize ei = st'.fsize (edgeAt g ei).src) ∧
    (∀ fuel2 n fv fz st2, st2.fov n ≠ Vec3.zero →
      (st2.fov n ≠ fv ∨ st2.fsize n ≠ fz) →
      fov_pass g fuel2 (.node n fv fz) st2 = none) := by
  obtain ⟨hsok, hsi, hii, hfok, hfin, hfinv, hins, houts⟩ :=
    graph_init_spec g outsz fuel st' hrun hpos houtsz
  have hins' : ∀ n, n < g.numNodes → g.isInput n = true → st'.stride n = Vec3.one := by
    intro n hn hi
    exact hins n (by
      rw [inputsList, List.mem_filter]
      exact ⟨List.mem_range.2 hn, hi⟩)
  have houts' : ∀ n, n < g.numNodes → outIdx g n = [] →
      st'.fov n = Vec3.one ∧ st'.fsize n = outsz := by
    intro n hn ho
    exact houts n (by
      rw [outputsList, List.mem_filter]
      exact ⟨List.mem_range.2 hn, by simp [ho]⟩)
  have hspos := reachFwd_pos g hpos hval st' hsok hsi hins'
  have hfpos := reachBwd_pos g hpos hval st' outsz houtsz hfok hii houts'
  refine ⟨?_, ?_, fov_pass_conflict g⟩
  · intro ei hei
    have hsrclt : (edgeAt g ei).src < g.numNodes := (hval _ (edgeAt_mem hei)).1
    have hsrcp := hspos g.numNodes _ hsrclt (hreach _ hsrclt).1
    exact (hsok ei hei (List.not_mem_nil ei) (posV_ne_zero hsrcp)).1
  · intro ei hei
    have hsrclt : (edgeAt g ei).src < g.numNodes := (hval _ (edgeAt_mem hei)).1
    have hsrcp := hfpos g.numNodes _ hsrclt (hreach _ hsrclt).2
    exact hfin ei hei (posV_ne_zero hsrcp.1)

/-- Witness for the amended C9 on the concrete topology `exG`. -/
theorem c9_fov_pass_records_witness :
    (graph_init exG Vec3.one 10).map (fun st' =>
      decide (st'.inStride 0 = st'.stride (edgeAt exG 0).src)) = some true ∧
    (graph_init exG Vec3.one 10).map (fun st' =>
      decide (st'.inFsize 0 = st'.fsize (edgeAt exG 0).src)) = some true := by
  cases hrun : graph_init exG Vec3.one 10 with
  | none =>
    have hsome : (graph_init exG Vec3.one 10).isSome = true := by decide
    rw [hrun] at hsome
    simp at hsome
  | some st' =>
    have h := c9_fov_pass_records exG Vec3.one 10 st' hrun
      (by unfold edgesPos; decide) (by decide) (by unfold gValid; decide) (by decide)
    constructor <;> simp only [Option.map]
    · exact congrArg some (decide_eq_true (h.1 0 (by decide)))
    · exact congrArg some (decide_eq_true (h.2.1 0 (by decide)))

/-- Delivery counts are additive over trace concatenation. -/
theorem dcount_append (tr1 tr2 : List Ev) (n i : Nat) :
    dcount (tr1 ++ tr2) n i = dcount tr1 n i + dcount tr2 n i :=
  List.count_append _ _ _

/-- Fire counts are additive over trace concatenation. -/
theorem fcount_append (tr1 tr2 : List Ev) (n i : Nat) :
    fcount (tr1 ++ tr2) n i = fcount tr1 n i + fcount tr2 n i :=
  List.count_append _ _ _

/-- A leading delivery event adds one to the matching delivery count. -/
theorem dcount_cons_del (m j n i : Nat) (tr : List Ev) :
    dcount (.del m j :: tr) n i =
      dcount tr n i + (if m = n ∧ j = i then 1 else 0) := by
  rw [dcount, dcount, List.count_cons]
  congr 1
  by_cases h : m = n ∧ j = i
  · rw [if_pos h, if_pos (by simp [h.1, h.2])]
  · rw [if_neg h, if_neg (by
      simp only [beq_iff_eq, Ev.del.injEq]
      intro hmm
      exact h hmm)]

/-- A leading fire event does not change delivery counts. -/
theorem dcount_cons_fire (m j n i : Nat) (tr : List Ev) :
    dcount (.fire m j :: tr) n i = dcount tr n i := by
  rw [dcount, dcount, List.count_cons, if_neg (by simp), Nat.add_zero]

/-- A leading delivery event does not change fire counts. -/
theorem fcount_cons_del (m j n i : Nat) (tr : List Ev) :
    fcount (.del m j :: tr) n i = fcount tr n i := by
  rw [fcount, fcount, List.count_cons, if_neg (by simp), Nat.add_zero]

/-- A leading fire event adds one to the matching fire count. -/
theorem fcount_cons_fire (m j n i : Nat) (tr : List Ev) :
    fcount (.fire m j :: tr) n i =
      fcount tr n i + (if m = n ∧ j = i then 1 else 0) := by
  rw [fcount, fcount, List.count_cons]
  congr 1
  by_cases h : m = n ∧ j = i
  · rw [if_pos h, if_pos (by simp [h.1, h.2])]
  · rw [if_neg h, if_neg (by
      simp only [beq_iff_eq, Ev.fire.injEq]
      intro hmm
      exact h hmm)]

/-- Fire sums are additive over trace concatenation. -/
theorem firesSum_append (tr1 tr2 : List Ev) (l : List (Nat × CEdge)) :
    firesSum (tr1 ++ tr2) l = firesSum tr1 l + firesSum tr2 l := by
  induction l with
  | nil => rfl
  | cons pe l ihl =>
    simp only [firesSum, List.map_cons, List.sum_cons] at *
    rw [fcount_append, ihl]
    ring

/-- A leading delivery does not change a fire sum. -/
theorem firesSum_cons_del (m j : Nat) (tr : List Ev) (l : List (Nat × CEdge)) :
    firesSum (.del m j :: tr) l = firesSum tr l := by
  induction l with
  | nil => rfl
  | cons pe l ihl =>
    simp only [firesSum, List.map_cons, List.sum_cons] at *
    rw [fcount_cons_del, ihl]

/-- A leading fire adds, to a fire sum over edges, the number of edges
whose source channel matches the fired channel. -/
theorem firesSum_cons_fire (m j : Nat) (tr : List Ev) (l : List (Nat × CEdge)) :
    firesSum (.fire m j :: tr) l =
      firesSum tr l + l.countP (fun pe => pe.2.src = m ∧ pe.2.srcCh = j) := by
  induction l with
  | nil => rfl
  | cons pe l ihl =>
    simp only [firesSum, List.map_cons, List.sum_cons, List.countP_cons] at *
    rw [fcount_cons_fire, ihl]
    by_cases h : pe.2.src = m ∧ pe.2.srcCh = j
    · rw [if_pos (by rw [h.1, h.2]; exact ⟨rfl, rfl⟩), if_pos (by simp [h])]
      ring
    · rw [if_neg (by
        intro hmm
        exact h ⟨hmm.1.symm ▸ rfl, hmm.2.symm ▸ rfl⟩), if_neg (by simpa using h)]
      ring

/-- A trace whose events all sit strictly above rank `R` contains no event
of a channel at rank at most `R`. -/
theorem no_events_at {rank : Nat → Nat} {R : Nat} {tr : List Ev}
    (h : ∀ ev ∈ tr, R < rank ev.node) {n : Nat} (hn : rank n ≤ R) (i : Nat) :
    dcount tr n i = 0 ∧ fcount tr n i = 0 := by
  constructor
  · rw [dcount, List.count_eq_zero]
    intro hmm
    exact absurd (h _ hmm) (by simp [Ev.node]; omega)
  · rw [fcount, List.count_eq_zero]
    intro hmm
    exact absurd (h _ hmm) (by simp [Ev.node]; omega)

/-- Iterated-mod step used to compose received-counter formulas. -/
theorem mod_step (r d1 d2 k : Nat) :
    ((r + d1) % k + d2) % k = (r + d1 + d2) % k := by
  conv_lhs => rw [Nat.add_mod]
  conv_rhs => rw [Nat.add_mod (r + d1) d2]
  rw [Nat.mod_mod_of_dvd _ (dvd_refl k)]

/-- Iterated-quotient step used to compose fire-count formulas. -/
theorem div_step (r d1 d2 k : Nat) :
    (r + d1) / k + ((r + d1) % k + d2) / k = (r + d1 + d2) / k := by
  rcases Nat.eq_zero_or_pos k with rfl | hk
  · simp [Nat.div_zero]
  · conv_rhs => rw [← Nat.div_add_mod (r + d1) k]
    rw [Nat.add_assoc, Nat.mul_add_div hk]

/-- Members of a channel's out-edge list are edges of the network from
that channel. -/
theorem mem_outCh {C : Type} {net : Net C} {n i : Nat} {pe : Nat × CEdge}
    (h : pe ∈ outCh net n i) :
    pe.2 ∈ net.edges ∧ pe.2.src = n ∧ pe.2.srcCh = i := by
  rw [outCh, List.mem_filter] at h
  refine ⟨?_, by simpa using h.2⟩
  have := List.mem_enum_iff_getElem?.1 h.1
  exact List.getElem?_mem this

/-- Members of a channel's in-edge list are edges of the network into
that channel. -/
theorem mem_inCh {C : Type} {net : Net C} {n i : Nat} {pe : Nat × CEdge}
    (h : pe ∈ inCh net n i) :
    pe.2 ∈ net.edges ∧ pe.2.dst = n ∧ pe.2.dstCh = i := by
  rw [inCh, List.mem_filter] at h
  refine ⟨?_, by simpa using h.2⟩
  have := List.mem_enum_iff_getElem?.1 h.1
  exact List.getElem?_mem this

/-- The number of out-edges of `(n,i)` landing on `(p,q)` equals the
number of in-edges of `(p,q)` leaving `(n,i)` (both count the same
edges). -/
theorem countP_out_in {C : Type} (net : Net C) (n i p q : Nat) :
    (outCh net n i).countP (fun pe => pe.2.dst = p ∧ pe.2.dstCh = q) =
    (inCh net p q).countP (fun pe => pe.2.src = n ∧ pe.2.srcCh = i) := by
  rw [outCh, inCh, List.countP_filter, List.countP_filter]
  apply List.countP_congr
  intro pe _
  rw [Bool.and_comm]

/-- Reading a pair-keyed update. -/
theorem upd_pair_apply {β : Type} (f : Nat × Nat → β) (n i : Nat) (v : β) (p q : Nat) :
    Function.update f (n, i) v (p, q) = if p = n ∧ q = i then v else f (p, q) := by
  rw [Function.update_apply]
  by_cases h : p = n ∧ q = i
  · rw [if_pos (by rw [h.1, h.2]), if_pos h]
  · rw [if_neg (by
      intro hmm
      exact h ⟨congrArg Prod.fst hmm, congrArg Prod.snd hmm⟩), if_neg h]

/-- An empty trace has no fires to sum. -/
theorem firesSum_nil (l : List (Nat × CEdge)) : firesSum [] l = 0 := by
  induction l with
  | nil => rfl
  | cons pe l ihl =>
    simp only [firesSum, List.map_cons, List.sum_cons] at *
    rw [ihl]
    rfl

/-- Main specification of the forward accumulation protocol, by induction
on fuel, for both call shapes. -/
theorem forward_run_spec {C : Type} (net : Net C) (rank : Nat → Nat)
    (hvT : validT net) (hrk : ranked net rank) : ∀ fuel : Nat,
    (∀ n i c st st' tr, forward_run net fuel (.node n i c) st = some (st', tr) →
      nodeConcl net rank n i st st' tr) ∧
    (∀ todo c st st' tr R, forward_run net fuel (.loop todo c) st = some (st', tr) →
      (∀ pe ∈ todo, pe.2 ∈ net.edges ∧ R < rank pe.2.dst) →
      loopConcl net rank R todo st st' tr) := by
  intro fuel
  induction fuel with
  | zero =>
    refine ⟨fun n i c st st' tr hrun => ?_, fun todo c st st' tr R hrun hto => ?_⟩ <;>
      simp [forward_run] at hrun
  | succ fuel ih =>
    obtain ⟨ihN, ihL⟩ := ih
    constructor
    · intro n i c st st' tr hrun
      simp only [forward_run] at hrun
      revert hrun
      cases hty : net.ntype n <;> intro hrun <;> dsimp only at hrun
      · -- input node: dispatch immediately
        split at hrun
        case isFalse => exact absurd hrun (by simp)
        case isTrue hi =>
        cases hmid : forward_run net fuel (.loop (outCh net n i) c) st with
        | none => rw [hmid] at hrun; exact absurd hrun (by simp)
        | some r1 =>
          obtain ⟨st1, trE⟩ := r1
          rw [hmid] at hrun
          injection hrun with h2
          injection h2 with hst htr
          subst hst; subst htr
          have hto : ∀ pe ∈ outCh net n i, pe.2 ∈ net.edges ∧ rank n < rank pe.2.dst := by
            intro pe hpe
            obtain ⟨hm, hsrc, -⟩ := mem_outCh hpe
            exact ⟨hm, by rw [← hsrc]; exact hrk _ hm⟩
          obtain ⟨L1, L2, L3, L4, L5, L6, L7⟩ := ihL (outCh net n i) c st st1 trE (rank n) hmid hto
          refine ⟨?_, ?_, ?_, ?_, L5, ?_, L7⟩
          · intro ev hev
            rcases List.mem_cons.1 hev with rfl | hev
            · exact le_refl _
            rcases List.mem_cons.1 hev with rfl | hev
            · exact le_refl _
            · exact le_of_lt (L1 ev hev)
          · intro p q hpnin
            have hpn : ¬(n = p ∧ i = q) := by
              rintro ⟨rfl, -⟩
              exact hpnin hty
            rw [dcount_cons_del, dcount_cons_fire, if_neg hpn, Nat.add_zero]
            constructor
            · intro hpre
              obtain ⟨hA, hB⟩ := (L2 p q hpnin).1 hpre
              rw [fcount_cons_del, fcount_cons_fire, if_neg hpn, Nat.add_zero]
              exact ⟨hA, hB⟩
            · intro hd0
              obtain ⟨hA, hB⟩ := (L2 p q hpnin).2 hd0
              rw [fcount_cons_del, fcount_cons_fire, if_neg hpn, Nat.add_zero]
              exact ⟨hA, hB⟩
          · intro p q hpin
            obtain ⟨hA, hB, hC, hD⟩ := L3 p q hpin
            rw [dcount_cons_del, dcount_cons_fire, fcount_cons_del, fcount_cons_fire,
              hC, hD, Nat.zero_add]
            by_cases hpq : p = n ∧ q = i
            · rw [if_pos ⟨hpq.1.symm, hpq.2.symm⟩, if_pos hpq]
              exact ⟨hA, hB, rfl, rfl⟩
            · rw [if_neg (fun hmm => hpq ⟨hmm.1.symm, hmm.2.symm⟩), if_neg hpq]
              exact ⟨hA, hB, rfl, rfl⟩
          · intro p q
            rw [dcount_cons_del, dcount_cons_fire, firesSum_cons_del, firesSum_cons_fire,
              L4 p q, countP_out_in]
            by_cases hpq : p = n ∧ q = i
            · rw [if_pos ⟨hpq.1.symm, hpq.2.symm⟩, if_pos hpq]
              omega
            · rw [if_neg (fun hmm => hpq ⟨hmm.1.symm, hmm.2.symm⟩), if_neg hpq]
              omega
          · intro p q hpt
            have hpn : ¬(n = p ∧ i = q) := by
              rintro ⟨rfl, -⟩
              rw [hty] at hpt
              exact NType.noConfusion hpt
            rw [dcount_cons_del, dcount_cons_fire, if_neg hpn, Nat.add_zero]
            exact L6 p q hpt
      · -- summing node
        split at hrun
        case isFalse => exact absurd hrun (by simp)
        case isTrue hi =>
        cases hacc : (if st.received (n, i) = 0 then some c
            else Option.map (fun a => net.addc a c) (st.fs (n, i))) with
        | none => rw [hacc] at hrun; exact absurd hrun (by simp)
        | some v =>
          rw [hacc] at hrun
          dsimp only at hrun
          by_cases hfire : st.received (n, i) + 1 = (inCh net n i).length
          · rw [if_pos hfire] at hrun
            cases hmid : forward_run net fuel (.loop (outCh net n i) v)
                { st with fs := Function.update st.fs (n, i) (some v), received := Function.update st.received (n, i) (st.received (n, i) + 1) } with
            | none => rw [hmid] at hrun; exact absurd hrun (by simp)
            | some r1 =>
              obtain ⟨st2, trE⟩ := r1
              rw [hmid] at hrun
              injection hrun with h2
              injection h2 with hst htr
              subst hst; subst htr
              have hto : ∀ pe ∈ outCh net n i, pe.2 ∈ net.edges ∧ rank n < rank pe.2.dst := by
                intro pe hpe
                obtain ⟨hm, hsrc, -⟩ := mem_outCh hpe
                exact ⟨hm, by rw [← hsrc]; exact hrk _ hm⟩
              obtain ⟨L1, L2, L3, L4, L5, L6, L7⟩ :=
                ihL (outCh net n i) v _ st2 trE (rank n) hmid hto
              have hnotrE := fun (j : Nat) => no_events_at L1 (le_refl (rank n)) j
              have hkpos : 0 < need net n i := by
                rw [need, ← hfire]
                exact Nat.succ_pos _
              refine ⟨?_, ?_, ?_, ?_, ?_, ?_, ?_⟩
              · intro ev hev
                rcases List.mem_cons.1 hev with rfl | hev
                · exact le_refl _
                rcases List.mem_cons.1 hev with rfl | hev
                · exact le_refl _
                · exact le_of_lt (L1 ev hev)
              · intro p q hpnin
                by_cases hpq : p = n ∧ q = i
                · obtain ⟨rfl, rfl⟩ := hpq
                  rw [dcount_cons_del, dcount_cons_fire, if_pos ⟨rfl, rfl⟩,
                    (hnotrE q).1, fcount_cons_del, fcount_cons_fire, if_pos ⟨rfl, rfl⟩,
                    (hnotrE q).2]
                  constructor
                  · intro hpre
                    constructor
                    · show Function.update st2.received (p, q) 0 (p, q) = _
                      rw [upd_pair_apply, if_pos ⟨rfl, rfl⟩, Nat.zero_add,
                        show st.received (p, q) + (0 + 1) = need net p q from hfire,
                        Nat.mod_self]
                    · rw [Nat.zero_add,
                        show st.received (p, q) + (0 + 1) = need net p q from hfire,
                        Nat.div_self hkpos]
                  · intro hd0
                    omega
                · have hpn : ¬(n = p ∧ i = q) := fun hmm => hpq ⟨hmm.1.symm, hmm.2.symm⟩
                  rw [dcount_cons_del, dcount_cons_fire, if_neg hpn, Nat.add_zero,
                    fcount_cons_del, fcount_cons_fire, if_neg hpn, Nat.add_zero]
                  have hrecsame : ∀ v2 : Nat,
                      ({ st with fs := Function.update st.fs (n, i) (some v), received := Function.update st.received (n, i) v2 } : RState C).received (p, q) = st.received (p, q) := by
                    intro v2
                    show Function.update st.received (n, i) v2 (p, q) = _
                    rw [upd_pair_apply, if_neg hpq]
                  have hfin : ({ st2 with received := Function.update st2.received (n, i) 0, fs := Function.update st2.fs (n, i) none } : RState C).received (p, q) = st2.received (p, q) := by
                    show Function.update st2.received (n, i) 0 (p, q) = _
                    rw [upd_pair_apply, if_neg hpq]
                  constructor
                  · intro hpre
                    obtain ⟨hA, hB⟩ := (L2 p q hpnin).1 (by rw [hrecsame]; exact hpre)
                    rw [hrecsame] at hA hB
                    exact ⟨by rw [hfin, hA], hB⟩
                  · intro hd0
                    obtain ⟨hA, hB⟩ := (L2 p q hpnin).2 hd0
                    rw [hrecsame] at hA
                    exact ⟨by rw [hfin, hA], hB⟩
              · intro p q hpin
                have hpq : ¬(p = n ∧ q = i) := by
                  rintro ⟨rfl, -⟩
                  rw [hty] at hpin
                  exact NType.noConfusion hpin
                have hpn : ¬(n = p ∧ i = q) := fun hmm => hpq ⟨hmm.1.symm, hmm.2.symm⟩
                obtain ⟨hA, hB, hC, hD⟩ := L3 p q hpin
                refine ⟨?_, ?_, ?_, ?_⟩
                · show Function.update st2.received (n, i) 0 (p, q) = _
                  rw [upd_pair_apply, if_neg hpq, hA]
                  show Function.update st.received (n, i) _ (p, q) = _
                  rw [upd_pair_apply, if_neg hpq]
                · show Function.update st2.fs (n, i) none (p, q) = _
                  rw [upd_pair_apply, if_neg hpq, hB]
                  show Function.update st.fs (n, i) (some v) (p, q) = _
                  rw [upd_pair_apply, if_neg hpq]
                · rw [dcount_cons_del, dcount_cons_fire, if_neg hpn, Nat.add_zero, hC,
                    if_neg hpq]
                · rw [fcount_cons_del, fcount_cons_fire, if_neg hpn, Nat.add_zero, hD,
                    if_neg hpq]
              · intro p q
                rw [dcount_cons_del, dcount_cons_fire, firesSum_cons_del,
                  firesSum_cons_fire, L4 p q, countP_out_in]
                by_cases hpq : p = n ∧ q = i
                · rw [if_pos ⟨hpq.1.symm, hpq.2.symm⟩, if_pos hpq]
                  omega
                · rw [if_neg (fun hmm => hpq ⟨hmm.1.symm, hmm.2.symm⟩), if_neg hpq]
                  omega
              · intro hs
                have hs1 : sumFsInv net { st with fs := Function.update st.fs (n, i) (some v), received := Function.update st.received (n, i) (st.received (n, i) + 1) } := by
                  intro p q hps
                  show Function.update st.fs (n, i) (some v) (p, q) = none ↔
                    Function.update st.received (n, i) _ (p, q) = 0
                  rw [upd_pair_apply, upd_pair_apply]
                  by_cases hpq : p = n ∧ q = i
                  · rw [if_pos hpq, if_pos hpq]
                    simp
                  · rw [if_neg hpq, if_neg hpq]
                    exact hs p q hps
                have hs2 := L5 hs1
                intro p q hps
                show Function.update st2.fs (n, i) none (p, q) = none ↔
                  Function.update st2.received (n, i) 0 (p, q) = 0
                rw [upd_pair_apply, upd_pair_apply]
                by_cases hpq : p = n ∧ q = i
                · rw [if_pos hpq, if_pos hpq]
                  simp
                · rw [if_neg hpq, if_neg hpq]
                  exact hs2 p q hps
              · intro p q hpt
                have hpq : ¬(p = n ∧ q = i) := by
                  rintro ⟨rfl, -⟩
                  rw [hty] at hpt
                  exact NType.noConfusion hpt
                have hpn : ¬(n = p ∧ i = q) := fun hmm => hpq ⟨hmm.1.symm, hmm.2.symm⟩
                have h6 := L6 p q hpt
                rw [dcount_cons_del, dcount_cons_fire, if_neg hpn, Nat.add_zero]
                show Function.update st2.fs (n, i) none (p, q) = none ↔ _
                rw [upd_pair_apply, if_neg hpq]
                rw [show ({ st with fs := Function.update st.fs (n, i) (some v), received := Function.update st.received (n, i) (st.received (n, i) + 1) } : RState C).fs (p, q)
                    = st.fs (p, q) from by
                  show Function.update st.fs (n, i) (some v) (p, q) = _
                  rw [upd_pair_apply, if_neg hpq]] at h6
                exact h6
              · exact L7
          · rw [if_neg hfire] at hrun
            injection hrun with h2
            injection h2 with hst htr
            subst hst; subst htr
            refine ⟨?_, ?_, ?_, ?_, ?_, ?_, rfl⟩
            · intro ev hev
              rcases List.mem_cons.1 hev with rfl | hev
              · exact le_refl _
              · exact absurd hev (List.not_mem_nil ev)
            · intro p q hpnin
              by_cases hpq : p = n ∧ q = i
              · obtain ⟨rfl, rfl⟩ := hpq
                rw [dcount_cons_del, if_pos ⟨rfl, rfl⟩, fcount_cons_del]
                constructor
                · intro hpre
                  constructor
                  · show Function.update st.received (p, q) _ (p, q) = _
                    rw [upd_pair_apply, if_pos ⟨rfl, rfl⟩, dcount, List.count_nil,
                      Nat.zero_add]
                    rcases hpre with h | h
                    · rw [Nat.mod_eq_of_lt (by simp only [need] at *; omega)]
                    · rw [h, Nat.mod_zero]
                  · rw [fcount, List.count_nil, dcount, List.count_nil, Nat.zero_add]
                    rcases hpre with h | h
                    · rw [Nat.div_eq_of_lt (by simp only [need] at *; omega)]
                    · rw [h, Nat.div_zero]
                · intro hd0
                  rw [dcount, List.count_nil] at hd0
                  omega
              · have hpn : ¬(n = p ∧ i = q) := fun hmm => hpq ⟨hmm.1.symm, hmm.2.symm⟩
                rw [dcount_cons_del, if_neg hpn, dcount, List.count_nil,
                  fcount_cons_del, fcount, List.count_nil]
                have hru : ({ st with fs := Function.update st.fs (n, i) (some v), received := Function.update st.received (n, i) (st.received (n, i) + 1) } : RState C).received (p, q)
                    = st.received (p, q) := by
                  show Function.update st.received (n, i) _ (p, q) = _
                  rw [upd_pair_apply, if_neg hpq]
                constructor
                · intro hpre
                  refine ⟨by
                    rw [hru, Nat.add_zero]
                    rcases hpre with h | h
                    · rw [Nat.mod_eq_of_lt h]
                    · rw [h, Nat.mod_zero], by
                    rw [Nat.add_zero]
                    rcases hpre with h | h
                    · rw [Nat.div_eq_of_lt h]
                    · rw [h, Nat.div_zero]⟩
                · intro hd0
                  exact ⟨hru, rfl⟩
            · intro p q hpin
              have hpq : ¬(p = n ∧ q = i) := by
                rintro ⟨rfl, -⟩
                rw [hty] at hpin
                exact NType.noConfusion hpin
              have hpn : ¬(n = p ∧ i = q) := fun hmm => hpq ⟨hmm.1.symm, hmm.2.symm⟩
              refine ⟨?_, ?_, ?_, ?_⟩
              · show Function.update st.received (n, i) _ (p, q) = _
                rw [upd_pair_apply, if_neg hpq]
              · show Function.update st.fs (n, i) (some v) (p, q) = _
                rw [upd_pair_apply, if_neg hpq]
              · rw [dcount_cons_del, if_neg hpn, dcount, List.count_nil, if_neg hpq]
              · rw [fcount_cons_del, fcount, List.count_nil, if_neg hpq]
            · intro p q
              rw [dcount_cons_del, dcount, List.count_nil, firesSum_cons_del, firesSum_nil]
              by_cases hpq : p = n ∧ q = i
              · rw [if_pos ⟨hpq.1.symm, hpq.2.symm⟩, if_pos hpq]
              · rw [if_neg (fun hmm => hpq ⟨hmm.1.symm, hmm.2.symm⟩), if_neg hpq]
            · intro hs p q hps
              show Function.update st.fs (n, i) (some v) (p, q) = none ↔
                Function.update st.received (n, i) _ (p, q) = 0
              rw [upd_pair_apply, upd_pair_apply]
              by_cases hpq : p = n ∧ q = i
              · rw [if_pos hpq, if_pos hpq]
                simp
              · rw [if_neg hpq, if_neg hpq]
                exact hs p q hps
            · intro p q hpt
              have hpq : ¬(p = n ∧ q = i) := by
                rintro ⟨rfl, -⟩
                rw [hty] at hpt
                exact NType.noConfusion hpt
              have hpn : ¬(n = p ∧ i = q) := fun hmm => hpq ⟨hmm.1.symm, hmm.2.symm⟩
              rw [dcount_cons_del, if_neg hpn, dcount, List.count_nil]
              show Function.update st.fs (n, i) (some v) (p, q) = none ↔ _
              rw [upd_pair_apply, if_neg hpq]
              simp
      · -- transfer node
        split at hrun
        case isFalse => exact absurd hrun (by simp)
        case isTrue hi =>
        cases hacc : (if st.received (n, i) = 0 then some c
            else Option.map (fun a => net.addc a c) (st.fs (n, i))) with
        | none => rw [hacc] at hrun; exact absurd hrun (by simp)
        | some v =>
          rw [hacc] at hrun
          dsimp only at hrun
          by_cases hfire : st.received (n, i) + 1 = (inCh net n i).length
          · rw [if_pos hfire] at hrun
            cases hmid : forward_run net fuel (.loop (outCh net n i) (net.phi n i v))
                { st with fs := Function.update st.fs (n, i) (some (net.phi n i v)), received := Function.update st.received (n, i) (st.received (n, i) + 1) } with
            | none => rw [hmid] at hrun; exact absurd hrun (by simp)
            | some r1 =>
              obtain ⟨st2, trE⟩ := r1
              rw [hmid] at hrun
              injection hrun with h2
              injection h2 with hst htr
              subst hst; subst htr
              have hto : ∀ pe ∈ outCh net n i, pe.2 ∈ net.edges ∧ rank n < rank pe.2.dst := by
                intro pe hpe
                obtain ⟨hm, hsrc, -⟩ := mem_outCh hpe
                exact ⟨hm, by rw [← hsrc]; exact hrk _ hm⟩
              obtain ⟨L1, L2, L3, L4, L5, L6, L7⟩ :=
                ihL (outCh net n i) (net.phi n i v) _ st2 trE (rank n) hmid hto
              have hnotrE := fun (j : Nat) => no_events_at L1 (le_refl (rank n)) j
              have hkpos : 0 < need net n i := by
                rw [need, ← hfire]
                exact Nat.succ_pos _
              refine ⟨?_, ?_, ?_, ?_, ?_, ?_, L7⟩
              · intro ev hev
                rcases List.mem_cons.1 hev with rfl | hev
                · exact le_refl _
                rcases List.mem_cons.1 hev with rfl | hev
                · exact le_refl _
                · exact le_of_lt (L1 ev hev)
              · intro p q hpnin
                by_cases hpq : p = n ∧ q = i
                · obtain ⟨rfl, rfl⟩ := hpq
                  rw [dcount_cons_del, dcount_cons_fire, if_pos ⟨rfl, rfl⟩,
                    (hnotrE q).1, fcount_cons_del, fcount_cons_fire, if_pos ⟨rfl, rfl⟩,
                    (hnotrE q).2]
                  constructor
                  · intro hpre
                    constructor
                    · show Function.update st2.received (p, q) 0 (p, q) = _
                      rw [upd_pair_apply, if_pos ⟨rfl, rfl⟩, Nat.zero_add,
                        show st.received (p, q) + (0 + 1) = need net p q from hfire,
                        Nat.mod_self]
                    · rw [Nat.zero_add,
                        show st.received (p, q) + (0 + 1) = need net p q from hfire,
                        Nat.div_self hkpos]
                  · intro hd0
                    omega
                · have hpn : ¬(n = p ∧ i = q) := fun hmm => hpq ⟨hmm.1.symm, hmm.2.symm⟩
                  rw [dcount_cons_del, dcount_cons_fire, if_neg hpn, Nat.add_zero,
                    fcount_cons_del, fcount_cons_fire, if_neg hpn, Nat.add_zero]
                  have hrecsame : ({ st with fs := Function.update st.fs (n, i) (some (net.phi n i v)), received := Function.update st.received (n, i) (st.received (n, i) + 1) } : RState C).received (p, q)
                      = st.received (p, q) := by
                    show Function.update st.received (n, i) _ (p, q) = _
                    rw [upd_pair_apply, if_neg hpq]
                  have hfin : ({ st2 with received := Function.update st2.received (n, i) 0 } : RState C).received
                      (p, q) = st2.received (p, q) := by
                    show Function.update st2.received (n, i) 0 (p, q) = _
                    rw [upd_pair_apply, if_neg hpq]
                  constructor
                  · intro hpre
                    obtain ⟨hA, hB⟩ := (L2 p q hpnin).1 (by rw [hrecsame]; exact hpre)
                    rw [hrecsame] at hA hB
                    exact ⟨by rw [hfin, hA], hB⟩
                  · intro hd0
                    obtain ⟨hA, hB⟩ := (L2 p q hpnin).2 hd0
                    rw [hrecsame] at hA
                    exact ⟨by rw [hfin, hA], hB⟩
              · intro p q hpin
                have hpq : ¬(p = n ∧ q = i) := by
                  rintro ⟨rfl, -⟩
                  rw [hty] at hpin
                  exact NType.noConfusion hpin
                have hpn : ¬(n = p ∧ i = q) := fun hmm => hpq ⟨hmm.1.symm, hmm.2.symm⟩
                obtain ⟨hA, hB, hC, hD⟩ := L3 p q hpin
                refine ⟨?_, ?_, ?_, ?_⟩
                · show Function.update st2.received (n, i) 0 (p, q) = _
                  rw [upd_pair_apply, if_neg hpq, hA]
                  show Function.update st.received (n, i) _ (p, q) = _
                  rw [upd_pair_apply, if_neg hpq]
                · rw [show ({ st2 with received := Function.update st2.received (n, i) 0 } : RState C).fs (p, q)
                      = st2.fs (p, q) from rfl, hB]
                  show Function.update st.fs (n, i) (some (net.phi n i v)) (p, q) = _
                  rw [upd_pair_apply, if_neg hpq]
                · rw [dcount_cons_del, dcount_cons_fire, if_neg hpn, Nat.add_zero, hC,
                    if_neg hpq]
                · rw [fcount_cons_del, fcount_cons_fire, if_neg hpn, Nat.add_zero, hD,
                    if_neg hpq]
              · intro p q
                rw [dcount_cons_del, dcount_cons_fire, firesSum_cons_del,
                  firesSum_cons_fire, L4 p q, countP_out_in]
                by_cases hpq : p = n ∧ q = i
                · rw [if_pos ⟨hpq.1.symm, hpq.2.symm⟩, if_pos hpq]
                  omega
                · rw [if_neg (fun hmm => hpq ⟨hmm.1.symm, hmm.2.symm⟩), if_neg hpq]
                  omega
              · intro hs
                have hs1 : sumFsInv net { st with fs := Function.update st.fs (n, i) (some (net.phi n i v)), received := Function.update st.received (n, i) (st.received (n, i) + 1) } := by
                  intro p q hps
                  have hpq : ¬(p = n ∧ q = i) := by
                    rintro ⟨rfl, -⟩
                    rw [hty] at hps
                    exact NType.noConfusion hps
                  show Function.update st.fs (n, i) _ (p, q) = none ↔
                    Function.update st.received (n, i) _ (p, q) = 0
                  rw [upd_pair_apply, upd_pair_apply, if_neg hpq, if_neg hpq]
                  exact hs p q hps
                have hs2 := L5 hs1
                intro p q hps
                have hpq : ¬(p = n ∧ q = i) := by
                  rintro ⟨rfl, -⟩
                  rw [hty] at hps
                  exact NType.noConfusion hps
                show st2.fs (p, q) = none ↔
                  Function.update st2.received (n, i) 0 (p, q) = 0
                rw [upd_pair_apply, if_neg hpq]
                exact hs2 p q hps
              · intro p q hpt
                rw [dcount_cons_del, dcount_cons_fire]
                by_cases hpq : p = n ∧ q = i
                · obtain ⟨rfl, rfl⟩ := hpq
                  rw [if_pos ⟨rfl, rfl⟩, (hnotrE q).1]
                  have h6 := L6 p q hpt
                  rw [show ({ st with fs := Function.update st.fs (p, q) (some (net.phi p q v)), received := Function.update st.received (p, q) (st.received (p, q) + 1) } : RState C).fs (p, q)
                      = some (net.phi p q v) from by
                    show Function.update st.fs (p, q) _ (p, q) = _
                    rw [upd_pair_apply, if_pos ⟨rfl, rfl⟩]] at h6
                  constructor
                  · intro hmm
                    rw [show ({ st2 with received := Function.update st2.received (p, q) 0 } : RState C).fs
                        (p, q) = st2.fs (p, q) from rfl] at hmm
                    rw [h6] at hmm
                    exact absurd hmm.1 (by simp)
                  · intro hmm
                    omega
                · have hpn : ¬(n = p ∧ i = q) := fun hmm => hpq ⟨hmm.1.symm, hmm.2.symm⟩
                  rw [if_neg hpn, Nat.add_zero]
                  have h6 := L6 p q hpt
                  rw [show ({ st with fs := Function.update st.fs (n, i) (some (net.phi n i v)), received := Function.update st.received (n, i) (st.received (n, i) + 1) } : RState C).fs (p, q)
                      = st.fs (p, q) from by
                    show Function.update st.fs (n, i) _ (p, q) = _
                    rw [upd_pair_apply, if_neg hpq]] at h6
                  exact h6
          · rw [if_neg hfire] at hrun
            injection hrun with h2
            injection h2 with hst htr
            subst hst; subst htr
            refine ⟨?_, ?_, ?_, ?_, ?_, ?_, rfl⟩
            · intro ev hev
              rcases List.mem_cons.1 hev with rfl | hev
              · exact le_refl _
              · exact absurd hev (List.not_mem_nil ev)
            · intro p q hpnin
              by_cases hpq : p = n ∧ q = i
              · obtain ⟨rfl, rfl⟩ := hpq
                rw [dcount_cons_del, if_pos ⟨rfl, rfl⟩, fcount_cons_del]
                constructor
                · intro hpre
                  constructor
                  · show Function.update st.received (p, q) _ (p, q) = _
                    rw [upd_pair_apply, if_pos ⟨rfl, rfl⟩, dcount, List.count_nil,
                      Nat.zero_add]
                    rcases hpre with h | h
                    · rw [Nat.mod_eq_of_lt (by simp only [need] at *; omega)]
                    · rw [h, Nat.mod_zero]
                  · rw [fcount, List.count_nil, dcount, List.count_nil, Nat.zero_add]
                    rcases hpre with h | h
                    · rw [Nat.div_eq_of_lt (by simp only [need] at *; omega)]
                    · rw [h, Nat.div_zero]
                · intro hd0
                  rw [dcount, List.count_nil] at hd0
                  omega
              · have hpn : ¬(n = p ∧ i = q) := fun hmm => hpq ⟨hmm.1.symm, hmm.2.symm⟩
                rw [dcount_cons_del, if_neg hpn, dcount, List.count_nil,
                  fcount_cons_del, fcount, List.count_nil]
                have hru : ({ st with fs := Function.update st.fs (n, i) (some v), received := Function.update st.received (n, i) (st.received (n, i) + 1) } : RState C).received (p, q)
                    = st.received (p, q) := by
                  show Function.update st.received (n, i) _ (p, q) = _
                  rw [upd_pair_apply, if_neg hpq]
                constructor
                · intro hpre
                  refine ⟨by
                    rw [hru, Nat.add_zero]
                    rcases hpre with h | h
                    · rw [Nat.mod_eq_of_lt h]
                    · rw [h, Nat.mod_zero], by
                    rw [Nat.add_zero]
                    rcases hpre with h | h
                    · rw [Nat.div_eq_of_lt h]
                    · rw [h, Nat.div_zero]⟩
                · intro hd0
                  exact ⟨hru, rfl⟩
            · intro p q hpin
              have hpq : ¬(p = n ∧ q = i) := by
                rintro ⟨rfl, -⟩
                rw [hty] at hpin
                exact NType.noConfusion hpin
              have hpn : ¬(n = p ∧ i = q) := fun hmm => hpq ⟨hmm.1.symm, hmm.2.symm⟩
              refine ⟨?_, ?_, ?_, ?_⟩
              · show Function.update st.received (n, i) _ (p, q) = _
                rw [upd_pair_apply, if_neg hpq]
              · show Function.update st.fs (n, i) (some v) (p, q) = _
                rw [upd_pair_apply, if_neg hpq]
              · rw [dcount_cons_del, if_neg hpn, dcount, List.count_nil, if_neg hpq]
              · rw [fcount_cons_del, fcount, List.count_nil, if_neg hpq]
            · intro p q
              rw [dcount_cons_del, dcount, List.count_nil, firesSum_cons_del, firesSum_nil]
              by_cases hpq : p = n ∧ q = i
              · rw [if_pos ⟨hpq.1.symm, hpq.2.symm⟩, if_pos hpq]
              · rw [if_neg (fun hmm => hpq ⟨hmm.1.symm, hmm.2.symm⟩), if_neg hpq]
            · intro hs p q hps
              have hpq : ¬(p = n ∧ q = i) := by
                rintro ⟨rfl, -⟩
                rw [hty] at hps
                exact NType.noConfusion hps
              show Function.update st.fs (n, i) (some v) (p, q) = none ↔
                Function.update st.received (n, i) _ (p, q) = 0
              rw [upd_pair_apply, upd_pair_apply, if_neg hpq, if_neg hpq]
              exact hs p q hps
            · intro p q hpt
              by_cases hpq : p = n ∧ q = i
              · obtain ⟨rfl, rfl⟩ := hpq
                rw [dcount_cons_del, if_pos ⟨rfl, rfl⟩, dcount, List.count_nil,
                  Nat.zero_add]
                show Function.update st.fs (p, q) (some v) (p, q) = none ↔ _
                rw [upd_pair_apply, if_pos ⟨rfl, rfl⟩]
                constructor
                · intro hmm
                  exact absurd hmm (by simp)
                · intro hmm
                  omega
              · have hpn : ¬(n = p ∧ i = q) := fun hmm => hpq ⟨hmm.1.symm, hmm.2.symm⟩
                rw [dcount_cons_del, if_neg hpn, dcount, List.count_nil]
                show Function.update st.fs (n, i) (some v) (p, q) = none ↔ _
                rw [upd_pair_apply, if_neg hpq]
                simp
    · intro todo c st st' tr R hrun hto
      match todo with
      | [] =>
        simp only [forward_run] at hrun
        injection hrun with h2
        injection h2 with hst htr
        subst hst; subst htr
        refine ⟨?_, ?_, ?_, ?_, fun hs => hs, ?_, rfl⟩
        · intro ev hev
          exact absurd hev (List.not_mem_nil ev)
        · intro p q hpnin
          rw [dcount, List.count_nil, fcount, List.count_nil]
          constructor
          · intro hpre
            refine ⟨?_, ?_⟩
            · rw [Nat.add_zero]
              rcases hpre with h | h
              · rw [Nat.mod_eq_of_lt h]
              · rw [h, Nat.mod_zero]
            · rw [Nat.add_zero]
              rcases hpre with h | h
              · rw [Nat.div_eq_of_lt h]
              · rw [h, Nat.div_zero]
          · intro hd0
            exact ⟨rfl, rfl⟩
        · intro p q hpin
          exact ⟨rfl, rfl, rfl, rfl⟩
        · intro p q
          rw [dcount, List.count_nil, firesSum_nil, List.countP_nil]
        · intro p q hpt
          rw [dcount, List.count_nil]
          simp
      | (ei, e) :: rest =>
        simp only [forward_run] at hrun
        cases hmid : forward_run net fuel (.node e.dst e.dstCh (net.edgeF ei c)) st with
        | none => rw [hmid] at hrun; exact absurd hrun (by simp)
        | some r1 =>
          obtain ⟨st1, tr1⟩ := r1
          rw [hmid] at hrun
          dsimp only at hrun
          cases hmid2 : forward_run net fuel (.loop rest c) st1 with
          | none => rw [hmid2] at hrun; exact absurd hrun (by simp)
          | some r2 =>
            obtain ⟨st2, tr2⟩ := r2
            rw [hmid2] at hrun
            injection hrun with h2
            injection h2 with hst htr
            subst hst; subst htr
            obtain ⟨hmem, hR⟩ := hto (ei, e) (List.mem_cons_self _ _)
            obtain ⟨N1, N2, N3, N4, N5, N6, N7⟩ := ihN e.dst e.dstCh (net.edgeF ei c) st st1 tr1 hmid
            obtain ⟨M1, M2, M3, M4, M5, M6, M7⟩ := ihL rest c st1 st2 tr2 R hmid2
              (fun pe hpe => hto pe (List.mem_cons_of_mem _ hpe))
            refine ⟨?_, ?_, ?_, ?_, fun hs => M5 (N5 hs), ?_, by rw [M7, N7]⟩
            · intro ev hev
              rcases List.mem_append.1 hev with hev | hev
              · exact lt_of_lt_of_le hR (N1 ev hev)
              · exact M1 ev hev
            · intro p q hpnin
              constructor
              · intro hpre
                obtain ⟨hA, hB⟩ := (N2 p q hpnin).1 hpre
                have hpre2 : st1.received (p, q) < need net p q ∨ need net p q = 0 := by
                  rcases Nat.eq_zero_or_pos (need net p q) with hz | hkp
                  · exact Or.inr hz
                  · exact Or.inl (by rw [hA]; exact Nat.mod_lt _ hkp)
                obtain ⟨hC, hD⟩ := (M2 p q hpnin).1 hpre2
                rw [dcount_append, fcount_append, hD, hC, hA, hB]
                constructor
                · rw [mod_step, Nat.add_assoc]
                · rw [div_step, Nat.add_assoc]
              · intro hd0
                rw [dcount_append] at hd0
                obtain ⟨hA, hB⟩ := (N2 p q hpnin).2 (by omega)
                obtain ⟨hC, hD⟩ := (M2 p q hpnin).2 (by omega)
                rw [fcount_append, hB, hD, hC, hA]
                exact ⟨rfl, rfl⟩
            · intro p q hpin
              obtain ⟨hA, hB, hC, hD⟩ := N3 p q hpin
              obtain ⟨hE, hF, hG, hH⟩ := M3 p q hpin
              have hne : ¬(p = e.dst ∧ q = e.dstCh) := by
                rintro ⟨rfl, -⟩
                exact (hvT e hmem).1 hpin
              rw [if_neg hne] at hC hD
              rw [dcount_append, fcount_append, hC, hD, hG, hH]
              exact ⟨by rw [hE, hA], by rw [hF, hB], rfl, rfl⟩
            · intro p q
              rw [dcount_append, N4 p q, M4 p q, firesSum_append, List.countP_cons]
              by_cases hpq : p = e.dst ∧ q = e.dstCh
              · rw [if_pos hpq, if_pos (by simp [hpq.1.symm, hpq.2.symm])]
                omega
              · rw [if_neg hpq, if_neg (by
                  simp only [Bool.and_eq_true, decide_eq_true_eq]
                  intro hmm
                  exact hpq ⟨hmm.1.symm, hmm.2.symm⟩)]
                omega
            · intro p q hpt
              rw [dcount_append, M6 p q hpt, N6 p q hpt]
              constructor
              · rintro ⟨⟨ha, hb⟩, hc⟩
                exact ⟨ha, by omega⟩
              · rintro ⟨ha, hb⟩
                exact ⟨⟨ha, by omega⟩, by omega⟩

/-- Top-level delivery counts are additive over concatenation. -/
theorem dlvCount_append {C : Type} (a b : List (Nat × Nat × C)) (p q : Nat) :
    dlvCount (a ++ b) p q = dlvCount a p q + dlvCount b p q := by
  simp only [dlvCount, List.countP_append]

/-- Peeling one delivery off the front of the list. -/
theorem dlvCount_cons {C : Type} (n i : Nat) (c : C)
    (rest : List (Nat × Nat × C)) (p q : Nat) :
    dlvCount ((n, i, c) :: rest) p q =
      (if p = n ∧ q = i then 1 else 0) + dlvCount rest p q := by
  simp only [dlvCount, List.countP_cons, decide_eq_true_eq]
  by_cases h : p = n ∧ q = i
  · rw [if_pos ⟨h.1.symm, h.2.symm⟩, if_pos h, Nat.add_comm]
  · rw [if_neg (fun hmm => h ⟨hmm.1.symm, hmm.2.symm⟩), if_neg h,
      Nat.add_zero, Nat.zero_add]

/-- Counting a fixed first component in an enumeration: the index `q`
occurs exactly once when it falls in the enumerated range. -/
theorem countP_fst_enumFrom {β : Type} (q : Nat) (cs : List β) :
    ∀ s, List.countP (fun x => decide (x.1 = q)) (cs.enumFrom s) =
      if s ≤ q ∧ q < s + cs.length then 1 else 0 := by
  induction cs with
  | nil =>
    intro s
    rw [List.enumFrom_nil, List.countP_nil,
      if_neg (fun hmm => by rw [List.length_nil] at hmm; omega)]
  | cons c cs ih =>
    intro s
    rw [List.enumFrom_cons, List.countP_cons, ih (s + 1)]
    simp only [decide_eq_true_eq]
    by_cases hq : s = q
    · rw [if_pos hq, if_neg (by omega), if_pos (by
        refine ⟨by omega, ?_⟩
        rw [List.length_cons]
        omega)]
    · rw [if_neg hq, Nat.add_zero]
      by_cases h2 : s + 1 ≤ q ∧ q < s + 1 + cs.length
      · rw [if_pos h2, if_pos ⟨by omega, by rw [List.length_cons]; omega⟩]
      · rw [if_neg h2, if_neg (fun hmm => by
          rw [List.length_cons] at hmm
          exact h2 ⟨by omega, by omega⟩)]

/-- The head map entry `(k, cs)` contributes one delivery to `(p,q)`
exactly when `k = p` and `q` is one of its channels. -/
theorem dlvCount_delivery_head {C : Type} (k : Nat) (cs : List C)
    (rest : List (Nat × List C)) (p q : Nat) :
    dlvCount (delivery_list ((k, cs) :: rest)) p q =
      (if k = p ∧ q < cs.length then 1 else 0) + dlvCount (delivery_list rest) p q := by
  have hsplit : delivery_list ((k, cs) :: rest) =
      (cs.enum.map (fun e => (k, e.1, e.2))) ++ delivery_list rest := by
    rw [delivery_list, delivery_list, List.flatMap_cons]
  rw [hsplit, dlvCount_append]
  congr 1
  rw [dlvCount, List.countP_map]
  by_cases hk : k = p
  · rw [List.countP_congr (q := fun x => decide (x.1 = q)) (fun a _ => by
      simp only [Function.comp_apply, decide_eq_true_eq]
      exact ⟨fun h => h.2, fun h => ⟨hk, h⟩⟩)]
    rw [List.enum, countP_fst_enumFrom q cs 0, Nat.zero_add]
    by_cases hq : q < cs.length
    · rw [if_pos ⟨Nat.zero_le q, hq⟩, if_pos ⟨hk, hq⟩]
    · rw [if_neg (fun hmm => hq hmm.2), if_neg (fun hmm => hq hmm.2)]
  · rw [List.countP_eq_zero.mpr (fun a _ => by
      simp only [Function.comp_apply, decide_eq_true_eq]
      exact fun hmm => hk hmm.1), if_neg (fun hmm => hk hmm.1)]

/-- A channel whose node no key of the argument map names receives no
top-level delivery. -/
theorem dlvCount_not_mem {C : Type} (fin : List (Nat × List C)) (p q : Nat)
    (hp : p ∉ fin.map Prod.fst) : dlvCount (delivery_list fin) p q = 0 := by
  induction fin with
  | nil => rfl
  | cons e rest ih =>
    obtain ⟨k, cs⟩ := e
    rw [List.map_cons, List.mem_cons] at hp
    rw [dlvCount_delivery_head,
      if_neg (fun hmm => hp (Or.inl hmm.1.symm)),
      ih (fun hmm => hp (Or.inr hmm)), Nat.add_zero]

/-- With distinct keys, a key `p` of channel count `L` receives exactly
one top-level delivery on each of its channels and none beyond. -/
theorem dlvCount_delivery {C : Type} (fin : List (Nat × List C)) (p L q : Nat)
    (hnd : (fin.map Prod.fst).Nodup) (hmem : p ∈ fin.map Prod.fst)
    (hlen : ∀ e ∈ fin, e.1 = p → e.2.length = L) :
    dlvCount (delivery_list fin) p q = if q < L then 1 else 0 := by
  induction fin with
  | nil => exact absurd hmem (List.not_mem_nil p)
  | cons e rest ih =>
    obtain ⟨k, cs⟩ := e
    rw [List.map_cons, List.nodup_cons] at hnd
    rw [dlvCount_delivery_head]
    by_cases hk : k = p
    · have hcl : cs.length = L := hlen (k, cs) (List.mem_cons_self _ _) hk
      rw [dlvCount_not_mem rest p q (by rw [← hk]; exact hnd.1), Nat.add_zero, hcl]
      by_cases hq : q < L
      · rw [if_pos ⟨hk, hq⟩, if_pos hq]
      · rw [if_neg (fun hmm => hq hmm.2), if_neg hq]
    · rw [if_neg (fun hmm => hk hmm.1), Nat.zero_add]
      refine ih hnd.2 ?_ (fun e he hep => hlen e (List.mem_cons_of_mem _ he) hep)
      rw [List.map_cons, List.mem_cons] at hmem
      rcases hmem with h | h
      · exact absurd h.symm hk
      · exact h

/-- Specification of the top-level delivery loop of `network::forward`:
composition of `forward_run_spec` over the list of `forward(i, cube)`
calls. -/
theorem run_top_spec {C : Type} (net : Net C) (rank : Nat → Nat)
    (hvT : validT net) (hrk : ranked net rank) (fuel : Nat) :
    ∀ ds st st' tr, run_top net fuel ds st = some (st', tr) →
      topConcl net ds st st' tr := by
  intro ds
  induction ds with
  | nil =>
    intro st st' tr hrun
    simp only [run_top] at hrun
    injection hrun with h2
    injection h2 with hst htr
    subst hst; subst htr
    refine ⟨?_, ?_, ?_, fun hs => hs, ?_, rfl⟩
    · intro p q hpnin
      constructor
      · intro hpre
        rw [dcount, List.count_nil, Nat.add_zero, fcount, List.count_nil]
        rcases hpre with h | h
        · rw [Nat.mod_eq_of_lt h, Nat.div_eq_of_lt h]
          exact ⟨rfl, rfl⟩
        · rw [h, Nat.mod_zero, Nat.div_zero]
          exact ⟨rfl, rfl⟩
      · intro hd0
        rw [fcount, List.count_nil]
        exact ⟨rfl, rfl⟩
    · intro p q hpin
      rw [dcount, List.count_nil, fcount, List.count_nil, dlvCount, List.countP_nil]
      exact ⟨rfl, rfl, rfl, rfl⟩
    · intro p q
      rw [dcount, List.count_nil, firesSum_nil, dlvCount, List.countP_nil]
    · intro p q hpt
      rw [dcount, List.count_nil]
      simp
  | cons d rest ih =>
    obtain ⟨n, i, c⟩ := d
    intro st st' tr hrun
    simp only [run_top] at hrun
    cases hmid : forward_run net fuel (.node n i c) st with
    | none => rw [hmid] at hrun; exact absurd hrun (by simp)
    | some r1 =>
      obtain ⟨st1, tr1⟩ := r1
      rw [hmid] at hrun
      dsimp only at hrun
      cases hmid2 : run_top net fuel rest st1 with
      | none => rw [hmid2] at hrun; exact absurd hrun (by simp)
      | some r2 =>
        obtain ⟨st2, tr2⟩ := r2
        rw [hmid2] at hrun
        injection hrun with h2
        injection h2 with hst htr
        subst hst; subst htr
        obtain ⟨N1, N2, N3, N4, N5, N6, N7⟩ :=
          (forward_run_spec net rank hvT hrk fuel).1 n i c st st1 tr1 hmid
        obtain ⟨M2, M3, M4, M5, M6, M7⟩ := ih st1 st2 tr2 hmid2
        refine ⟨?_, ?_, ?_, fun hs => M5 (N5 hs), ?_, by rw [M7, N7]⟩
        · intro p q hpnin
          constructor
          · intro hpre
            obtain ⟨hA, hB⟩ := (N2 p q hpnin).1 hpre
            have hpre2 : st1.received (p, q) < need net p q ∨ need net p q = 0 := by
              rcases Nat.eq_zero_or_pos (need net p q) with hz | hkp
              · exact Or.inr hz
              · exact Or.inl (by rw [hA]; exact Nat.mod_lt _ hkp)
            obtain ⟨hC, hD⟩ := (M2 p q hpnin).1 hpre2
            rw [dcount_append, fcount_append, hD, hC, hA, hB]
            constructor
            · rw [mod_step, Nat.add_assoc]
            · rw [div_step, Nat.add_assoc]
          · intro hd0
            rw [dcount_append] at hd0
            obtain ⟨hA, hB⟩ := (N2 p q hpnin).2 (by omega)
            obtain ⟨hC, hD⟩ := (M2 p q hpnin).2 (by omega)
            rw [fcount_append, hB, hD, hC, hA]
            exact ⟨rfl, rfl⟩
        · intro p q hpin
          obtain ⟨hA, hB, hC, hD⟩ := N3 p q hpin
          obtain ⟨hE, hF, hG, hH⟩ := M3 p q hpin
          rw [dcount_append, fcount_append, hC, hD, hG, hH, dlvCount_cons]
          exact ⟨by rw [hE, hA], by rw [hF, hB], rfl, rfl⟩
        · intro p q
          rw [dcount_append, N4 p q, M4 p q, firesSum_append, dlvCount_cons]
          omega
        · intro p q hpt
          rw [dcount_append, M6 p q hpt, N6 p q hpt]
          constructor
          · rintro ⟨⟨ha, hb⟩, hc⟩
            exact ⟨ha, by omega⟩
          · rintro ⟨ha, hb⟩
            exact ⟨⟨ha, by omega⟩, by omega⟩

/-- Unfolding of a passing `network::forward` argument check: as many
entries as registered input groups, every key registered, every value list
of the key's channel count. -/
theorem forward_checks_spec {C : Type} (net : Net C) (fin : List (Nat × List C))
    (hch : forward_checks net fin = true) :
    fin.length = (inputsOf net).length ∧
    ∀ e ∈ fin, e.1 ∈ inputsOf net ∧ e.2.length = net.size e.1 := by
  rw [forward_checks, Bool.and_eq_true, List.all_eq_true] at hch
  refine ⟨beq_iff_eq.mp hch.1, fun e he => ?_⟩
  have h2 := hch.2 e he
  rw [Bool.and_eq_true] at h2
  exact ⟨List.elem_iff.mp h2.1, (beq_iff_eq.mp h2.2).symm⟩

/-- The registered input list has no duplicates. -/
theorem inputsOf_nodup {C : Type} (net : Net C) : (inputsOf net).Nodup :=
  List.Nodup.filter _ (List.nodup_range _)

/-- Membership in the registered input list. -/
theorem mem_inputsOf {C : Type} (net : Net C) (p : Nat) :
    p ∈ inputsOf net ↔ p < net.numNodes ∧ net.ntype p = NType.input := by
  simp [inputsOf, List.mem_filter, List.mem_range]

/-- A passing check with distinct keys covers every registered input
group: the `std::map` argument has exactly the input names as keys. -/
theorem checks_cover {C : Type} (net : Net C) (fin : List (Nat × List C))
    (hch : forward_checks net fin = true) (hnd : (fin.map Prod.fst).Nodup) :
    ∀ p ∈ inputsOf net, p ∈ fin.map Prod.fst := by
  obtain ⟨hlen, hall⟩ := forward_checks_spec net fin hch
  have hsub : fin.map Prod.fst ⊆ inputsOf net := by
    intro a ha
    obtain ⟨e, he, hea⟩ := List.mem_map.mp ha
    rw [← hea]
    exact (hall e he).1
  have hperm : List.Perm (fin.map Prod.fst) (inputsOf net) :=
    (hnd.subperm hsub).perm_of_length_le (by rw [List.length_map, hlen])
  exact fun p hp => hperm.symm.subset hp

/-- The complete effect of a successful `network::forward` run on an
acyclic network with full fan-in whose argument map has distinct keys:
every in-range channel fires exactly once, every `received_` counter ends
at zero, input and summing groups end with a released accumulator, and
transfer groups retain their computed feature map. -/
theorem forward_final {C : Type} (net : Net C) (rank : Nat → Nat) (fuel : Nat)
    (fin : List (Nat × List C)) (st' : RState C) (tr : List Ev)
    (hvT : validT net) (hrk : ranked net rank) (hfan : fanInOk net)
    (hnd : (fin.map Prod.fst).Nodup)
    (hrun : run_forward net fuel fin = some (st', tr)) :
    ∀ p, p < net.numNodes → ∀ q, q < net.size p →
      fcount tr p q = 1 ∧
      st'.received (p, q) = 0 ∧
      (net.ntype p ≠ NType.transfer → st'.fs (p, q) = none) ∧
      (net.ntype p = NType.transfer → st'.fs (p, q) ≠ none) := by
  by_cases hch : forward_checks net fin = true
  case neg =>
    rw [run_forward, if_neg hch] at hrun
    exact absurd hrun (by simp)
  rw [run_forward, if_pos hch] at hrun
  obtain ⟨T2, T3, T4, T5, T6, T7⟩ :=
    run_top_spec net rank hvT hrk fuel (delivery_list fin) (rstate0 C) st' tr hrun
  obtain ⟨hlen, hall⟩ := forward_checks_spec net fin hch
  have hkey_in : ∀ p, p ∈ fin.map Prod.fst → net.ntype p = NType.input := by
    intro p hp
    obtain ⟨e, he, hea⟩ := List.mem_map.mp hp
    have hmi := (hall e he).1
    rw [hea] at hmi
    exact ((mem_inputsOf net p).mp hmi).2
  have hdlv_in : ∀ p q, net.ntype p = NType.input → p < net.numNodes →
      dlvCount (delivery_list fin) p q = if q < net.size p then 1 else 0 := by
    intro p q hpin hp
    refine dlvCount_delivery fin p (net.size p) q hnd
      (checks_cover net fin hch hnd p ((mem_inputsOf net p).mpr ⟨hp, hpin⟩)) ?_
    intro e he hep
    rw [(hall e he).2, hep]
  have hdlv_nin : ∀ p q, net.ntype p ≠ NType.input →
      dlvCount (delivery_list fin) p q = 0 := by
    intro p q hpnin
    exact dlvCount_not_mem fin p q (fun hmm => hpnin (hkey_in p hmm))
  have hsum_ones : ∀ p q,
      (∀ pe ∈ inCh net p q, fcount tr pe.2.src pe.2.srcCh = 1) →
      firesSum tr (inCh net p q) = need net p q := by
    intro p q hsrc
    have hones : (inCh net p q).map (fun pe => fcount tr pe.2.src pe.2.srcCh)
        = List.replicate ((inCh net p q).map
            (fun pe => fcount tr pe.2.src pe.2.srcCh)).length 1 := by
      apply List.eq_replicate_of_mem
      intro b hb
      obtain ⟨pe, hpe, hpeb⟩ := List.mem_map.mp hb
      rw [← hpeb]
      exact hsrc pe hpe
    rw [firesSum, hones, List.sum_replicate, smul_eq_mul, Nat.mul_one,
      List.length_map]
    rfl
  have main : ∀ R p, rank p = R → p < net.numNodes → ∀ q, q < net.size p →
      fcount tr p q = 1 := by
    intro R
    induction R using Nat.strong_induction_on with
    | _ R ih =>
      intro p hR hp q hq
      by_cases hpin : net.ntype p = NType.input
      · rw [(T3 p q hpin).2.2.2, hdlv_in p q hpin hp, if_pos hq]
      · have hneed : 1 ≤ need net p q := hfan p hp hpin q hq
        have hdc : dcount tr p q = need net p q := by
          rw [T4 p q, hdlv_nin p q hpin, Nat.zero_add]
          refine hsum_ones p q ?_
          intro pe hpe
          obtain ⟨hm, hdst, hdch⟩ := mem_inCh hpe
          have hlt : rank pe.2.src < R := by
            rw [← hR, ← hdst]
            exact hrk pe.2 hm
          exact ih (rank pe.2.src) hlt pe.2.src rfl (hvT pe.2 hm).2.2.2.1
            pe.2.srcCh (hvT pe.2 hm).2.1
        obtain ⟨hA, hB⟩ := (T2 p q hpin).1
          (Or.inl (show (rstate0 C).received (p, q) < need net p q from hneed))
        rw [hB, hdc, show (rstate0 C).received (p, q) = 0 from rfl, Nat.zero_add,
          Nat.div_self hneed]
  have hdcount : ∀ p, net.ntype p ≠ NType.input → ∀ q, q < net.size p →
      dcount tr p q = need net p q := by
    intro p hpnin q hq
    rw [T4 p q, hdlv_nin p q hpnin, Nat.zero_add]
    refine hsum_ones p q ?_
    intro pe hpe
    obtain ⟨hm, hdst, hdch⟩ := mem_inCh hpe
    exact main (rank pe.2.src) pe.2.src rfl (hvT pe.2 hm).2.2.2.1
      pe.2.srcCh (hvT pe.2 hm).2.1
  intro p hp q hq
  have hfire1 : fcount tr p q = 1 := main (rank p) p rfl hp q hq
  by_cases hpin : net.ntype p = NType.input
  case pos =>
    obtain ⟨hA, hB, hC, hD⟩ := T3 p q hpin
    refine ⟨hfire1, by rw [hA]; rfl, fun _ => by rw [hB]; rfl, fun hpt => ?_⟩
    exact absurd (hpin.symm.trans hpt) (by intro h; exact NType.noConfusion h)
  case neg =>
    have hneed : 1 ≤ need net p q := hfan p hp hpin q hq
    have hdc := hdcount p hpin q hq
    obtain ⟨hA, hB⟩ := (T2 p q hpin).1
      (Or.inl (show (rstate0 C).received (p, q) < need net p q from hneed))
    have hrec0 : st'.received (p, q) = 0 := by
      rw [hA, hdc, show (rstate0 C).received (p, q) = 0 from rfl, Nat.zero_add,
        Nat.mod_self]
    refine ⟨hfire1, hrec0, fun hnt => ?_, fun hpt => ?_⟩
    · have hps : net.ntype p = NType.sum := by
        cases h : net.ntype p
        · exact absurd h hpin
        · rfl
        · exact absurd h hnt
      have hsfs := T5 (fun a b hab => Iff.intro (fun _ => rfl) (fun _ => rfl)) p q hps
      exact hsfs.mpr hrec0
    · have h6 := T6 p q hpt
      intro hnone
      obtain ⟨-, hd0⟩ := h6.mp hnone
      rw [hdc] at hd0
      omega

/-- C3 counterexample: on the concrete well-formed network `exNetT` (one
input group feeding one transfer output group), after `forward` returns
the transfer group's accumulator `fs_[0]` still holds the computed
feature map — `transfer_nodes::forward` does not release it — while the
`received_` counter is back to `0`. -/
theorem c3_transfer_keeps_accumulator :
    validT exNetT ∧ fanInOk exNetT ∧ ranked exNetT (fun n => n) ∧
    (run_forward exNetT 5 exFin).map (fun pr => pr.1.fs (1, 0)) = some (some 7) ∧
    (run_forward exNetT 5 exFin).map (fun pr => pr.1.received (1, 0)) = some 0 := by
  refine ⟨by unfold validT; decide, by unfold fanInOk; decide,
    by unfold ranked; decide, by decide, by decide⟩

/-- C3 (amended): for a structurally valid, acyclic network with full
fan-in and a complete input map with distinct keys, after
`network::forward` returns every per-channel `received_` counter is `0`,
and the input and summing groups hold no accumulator buffer; but transfer
groups retain their feature accumulator `fs_` for the backward pass, so
not every accumulator buffer is released. -/
theorem c3_forward_leaves_counters_clear {C : Type} (net : Net C)
    (rank : Nat → Nat) (fuel : Nat) (fin : List (Nat × List C))
    (st' : RState C) (tr : List Ev)
    (hvT : validT net) (hrk : ranked net rank) (hfan : fanInOk net)
    (hnd : (fin.map Prod.fst).Nodup)
    (hrun : run_forward net fuel fin = some (st', tr)) :
    ∀ p, p < net.numNodes → ∀ q, q < net.size p →
      st'.received (p, q) = 0 ∧
      (net.ntype p ≠ NType.transfer → st'.fs (p, q) = none) ∧
      (net.ntype p = NType.transfer → st'.fs (p, q) ≠ none) := by
  intro p hp q hq
  obtain ⟨-, h2, h3, h4⟩ :=
    forward_final net rank fuel fin st' tr hvT hrk hfan hnd hrun p hp q hq
  exact ⟨h2, h3, h4⟩

/-- Witness for the amended C3 on `exNetT`: the transfer channel ends with
`received = 0` and a retained feature map, the input channel with
`received = 0` and no accumulator. -/
theorem c3_forward_leaves_counters_clear_witness :
    (run_forward exNetT 5 exFin).map (fun pr =>
      decide (pr.1.received (1, 0) = 0 ∧ pr.1.fs (1, 0) ≠ none)) = some true ∧
    (run_forward exNetT 5 exFin).map (fun pr =>
      decide (pr.1.received (0, 0) = 0 ∧ pr.1.fs (0, 0) = none)) = some true := by
  cases hrun : run_forward exNetT 5 exFin with
  | none =>
    have hsome : (run_forward exNetT 5 exFin).isSome = true := by decide
    rw [hrun] at hsome
    simp at hsome
  | some pr =>
    obtain ⟨st', tr⟩ := pr
    have h1 := c3_forward_leaves_counters_clear exNetT (fun n => n) 5 exFin st' tr
      (by unfold validT; decide) (by unfold ranked; decide)
      (by unfold fanInOk; decide) (by decide) hrun 1 (by decide) 0 (by decide)
    have h0 := c3_forward_leaves_counters_clear exNetT (fun n => n) 5 exFin st' tr
      (by unfold validT; decide) (by unfold ranked; decide)
      (by unfold fanInOk; decide) (by decide) hrun 0 (by decide) 0 (by decide)
    constructor <;> simp only [Option.map]
    · exact congrArg some (decide_eq_true ⟨h1.1, h1.2.2 (by decide)⟩)
    · exact congrArg some (decide_eq_true ⟨h0.1, h0.2.1 (by decide)⟩)

/-- `List.mapM` over `Option` on a list where the function always
succeeds. -/
theorem mapM_eq_map_of_some {α β : Type} (f : α → Option β) (g : α → β) :
    ∀ l : List α, (∀ x ∈ l, f x = some (g x)) → l.mapM f = some (l.map g) := by
  intro l
  induction l with
  | nil => intro h; rfl
  | cons a l ih =>
    intro h
    rw [List.mapM_cons, h a (List.mem_cons_self _ _),
      ih (fun x hx => h x (List.mem_cons_of_mem _ hx)), List.map_cons]
    rfl

/-- Membership in `output_nodes_`: an in-range node group with no
out-edges. -/
theorem mem_output_nodes {C : Type} (net : Net C) (n : Nat) :
    n ∈ output_nodes net ↔ n < net.numNodes ∧ node_out_all net n = [] := by
  simp [output_nodes, List.mem_filter, List.mem_range]

/-- C5 counterexample: on the concrete well-formed network `exNetS` whose
single output group is a summing group, `network::forward` returns the
entry `(1, [none])`: the summing group's accumulator was reset when it
fired, so the returned feature-map vector holds a null cube, not the
values computed in the pass. -/
theorem c5_summing_output_null :
    validT exNetS ∧ fanInOk exNetS ∧ ranked exNetS (fun n => n) ∧
    output_nodes exNetS = [1] ∧ exNetS.ntype 1 = NType.sum ∧
    (network_forward exNetS 5 exFin).map (fun r => r.1) = some [(1, [none])] := by
  refine ⟨by unfold validT; decide, by unfold fanInOk; decide,
    by unfold ranked; decide, by decide, by decide, by decide⟩

/-- C5 (amended): on a structurally valid, acyclic network with full
fan-in, no input group among the outputs, and a complete input map with
distinct keys, `network::forward` returns one entry per output node group
whose value is that group's current feature-map vector `fs_`; for a
transfer output group every channel holds a non-null cube, but for a
summing output group every channel is null (the accumulator was released
on firing). -/
theorem c5_forward_returns_featuremaps {C : Type} (net : Net C)
    (rank : Nat → Nat) (fuel : Nat) (fin : List (Nat × List C))
    (st' : RState C) (tr : List Ev)
    (hvT : validT net) (hrk : ranked net rank) (hfan : fanInOk net)
    (hnd : (fin.map Prod.fst).Nodup)
    (hout : ∀ n ∈ output_nodes net, net.ntype n ≠ NType.input)
    (hrun : run_forward net fuel fin = some (st', tr)) :
    network_forward net fuel fin =
      some ((output_nodes net).map
        (fun n => (n, (List.range (net.size n)).map (fun i => st'.fs (n, i)))),
        st', tr) ∧
    ∀ n ∈ output_nodes net, ∀ i, i < net.size n →
      (net.ntype n = NType.transfer → st'.fs (n, i) ≠ none) ∧
      (net.ntype n ≠ NType.transfer → st'.fs (n, i) = none) := by
  constructor
  · rw [network_forward, hrun]
    dsimp only
    rw [mapM_eq_map_of_some
      (fun n => (get_featuremaps net st' n).map (fun v => (n, v)))
      (fun n => (n, (List.range (net.size n)).map (fun i => st'.fs (n, i))))
      (output_nodes net) ?_]
    · intro n hn
      have hni := hout n hn
      cases h : net.ntype n
      · exact absurd h hni
      · simp [get_featuremaps, h]
      · simp [get_featuremaps, h]
  · intro n hn i hi
    obtain ⟨hlt, -⟩ := (mem_output_nodes net n).mp hn
    obtain ⟨-, -, h3, h4⟩ :=
      forward_final net rank fuel fin st' tr hvT hrk hfan hnd hrun n hlt i hi
    exact ⟨h4, h3⟩

/-- Witness for the amended C5 on `exNetT`: the returned map is exactly
`[(1, fs_ vector)]` and the transfer output's cube is non-null. -/
theorem c5_forward_returns_featuremaps_witness :
    (run_forward exNetT 5 exFin).map (fun pr =>
      decide ((network_forward exNetT 5 exFin).map (fun r => r.1) =
        some [(1, [pr.1.fs (1, 0)])] ∧ pr.1.fs (1, 0) ≠ none)) = some true := by
  cases hrun : run_forward exNetT 5 exFin with
  | none =>
    have hsome : (run_forward exNetT 5 exFin).isSome = true := by decide
    rw [hrun] at hsome
    simp at hsome
  | some pr =>
    obtain ⟨st', tr⟩ := pr
    have h := c5_forward_returns_featuremaps exNetT (fun n => n) 5 exFin st' tr
      (by unfold validT; decide) (by unfold ranked; decide)
      (by unfold fanInOk; decide) (by decide) (by decide) hrun
    have hmap : (network_forward exNetT 5 exFin).map (fun r => r.1) =
        some [(1, [st'.fs (1, 0)])] := by
      rw [h.1]
      rfl
    have hne := (h.2 1 (by decide) 0 (by decide)).1 (by decide)
    simp only [Option.map]
    exact congrArg some (decide_eq_true ⟨hmap, hne⟩)
